import Mathlib

/-!
Verification of the glyph-atlas LRU cache (`DynamicCharAtlas`) of xterm.js.

The definitions below are a shallow embedding of `src/unnamed/part_000`
(`DynamicCharAtlas.ts`).  A JavaScript `Map` is modelled as an association
list in insertion order (oldest entry first); canvases are modelled as total
pixel functions; the browser's text rasterizer and `drawImage` compositor,
which are external to the repository, are parameters (`Browser`).  Values
imported from files that are not part of the sources here (`clearColor`,
`DIM_OPACITY`, `INVERTED_DEFAULT_COLOR`) are modelled from the spec and say
so in their doc comments.
-/

namespace XtermAtlas

/-- RGB color as exposed by the theme (`IColor`); `css` is its renderable
representation, the channels are what `clearColor` compares against. -/
structure IColor where
  r : Nat
  g : Nat
  b : Nat
deriving DecidableEq

/-- Theme colors (`IColorSet`): default foreground/background and the
256-entry indexed palette. -/
structure IColorSet where
  foreground : IColor
  background : IColor
  ansi : Nat → IColor

/-- Construction-time configuration (`ICharAtlasConfig`), the fields the
source reads. -/
structure ICharAtlasConfig where
  scaledCharWidth : Nat
  scaledCharHeight : Nat
  fontFamily : String
  fontSize : Nat
  devicePixelDpr : Nat
  colors : IColorSet

/-- Visual identity of a glyph (`IGlyphIdentifier`). -/
@[ext]
structure IGlyphIdentifier where
  char : Char
  bg : Nat
  fg : Nat
  bold : Bool
  dim : Bool
deriving DecidableEq

/-- Modelled from the spec: `INVERTED_DEFAULT_COLOR` is imported from
`./Types`, which is not among the sources; the spec describes it as a
reserved sentinel color id outside the indexed range 0..255. -/
def INVERTED_DEFAULT_COLOR : Nat := 257

/-- Modelled from the spec: `DIM_OPACITY` is imported from `./Types`, which
is not among the sources; the spec describes it as a fixed opacity
multiplier (dim factor, e.g. 0.5). -/
def DIM_OPACITY : ℚ := 1 / 2

def TEXTURE_WIDTH : Nat := 1024

def TEXTURE_HEIGHT : Nat := 1024

abbrev GlyphCacheKey := String

/-! ### Decimal rendering of a natural number

JavaScript template interpolation renders the color ids `glyph.bg` and
`glyph.fg` (natural numbers here) in decimal.  `natToString` is that
rendering; the lemmas establish that it is injective and never produces the
separator character. -/

def natDigits : Nat → List Char
  | 0 => []
  | n + 1 => natDigits ((n + 1) / 10) ++ [Nat.digitChar ((n + 1) % 10)]
decreasing_by exact Nat.div_lt_self (Nat.succ_pos n) (by decide)

def natFromDigits (l : List Char) : Nat :=
  l.foldl (fun a c => 10 * a + (c.toNat - 48)) 0

def natToString (n : Nat) : String :=
  if n = 0 then "0" else String.mk (natDigits n)

lemma natFromDigits_append_digit (xs : List Char) (c : Char) :
    natFromDigits (xs ++ [c]) = 10 * natFromDigits xs + (c.toNat - 48) := by
  simp [natFromDigits, List.foldl_append]

lemma digitVal_digitChar : ∀ r < 10, (Nat.digitChar r).toNat - 48 = r := by decide

lemma digitChar_ne_underscore : ∀ r < 10, Nat.digitChar r ≠ '_' := by decide

lemma natFromDigits_natDigits (n : Nat) : natFromDigits (natDigits n) = n := by
  induction n using Nat.strong_induction_on with
  | _ n ih =>
    match n with
    | 0 => simp [natDigits, natFromDigits]
    | m + 1 =>
      rw [natDigits, natFromDigits_append_digit,
        ih ((m + 1) / 10) (Nat.div_lt_self (Nat.succ_pos m) (by decide)),
        digitVal_digitChar ((m + 1) % 10) (Nat.mod_lt _ (by decide))]
      omega

lemma not_underscore_mem_natDigits (n : Nat) : '_' ∉ natDigits n := by
  induction n using Nat.strong_induction_on with
  | _ n ih =>
    match n with
    | 0 => simp [natDigits]
    | m + 1 =>
      rw [natDigits]
      intro hmem
      rcases List.mem_append.mp hmem with h1 | h2
      · exact ih _ (Nat.div_lt_self (Nat.succ_pos m) (by decide)) h1
      · exact digitChar_ne_underscore _ (Nat.mod_lt _ (by decide))
          (List.mem_singleton.mp h2).symm

lemma not_underscore_mem_natToString (n : Nat) : '_' ∉ (natToString n).data := by
  unfold natToString
  split
  · intro h
    simp at h
  · exact not_underscore_mem_natDigits n

lemma natToString_data_inj {a b : Nat}
    (h : (natToString a).data = (natToString b).data) : a = b := by
  unfold natToString at h
  by_cases ha : a = 0 <;> by_cases hb : b = 0 <;>
      simp only [ha, hb, if_pos, if_neg, if_true, if_false] at h
  · omega
  · exfalso
    apply hb
    have hb2 : natFromDigits (natDigits b) = b := natFromDigits_natDigits b
    rw [← h] at hb2
    have h0 : natFromDigits ['0'] = 0 := rfl
    rw [h0] at hb2
    exact hb2.symm
  · exfalso
    apply ha
    have ha2 : natFromDigits (natDigits a) = a := natFromDigits_natDigits a
    rw [h] at ha2
    have h0 : natFromDigits ['0'] = 0 := rfl
    rw [h0] at ha2
    exact ha2.symm
  · have := congrArg natFromDigits h
    rwa [natFromDigits_natDigits, natFromDigits_natDigits] at this

lemma append_sep_inj (xs : List Char) : ∀ (xs' : List Char) {ys ys' : List Char},
    xs ++ '_' :: ys = xs' ++ '_' :: ys' → '_' ∉ xs → '_' ∉ xs' →
    xs = xs' ∧ ys = ys' := by
  induction xs with
  | nil =>
    intro xs' ys ys' h hx hx'
    cases xs' with
    | nil => simpa using h
    | cons c t =>
      exfalso
      simp only [List.nil_append, List.cons_append, List.cons.injEq] at h
      exact hx' (h.1 ▸ List.mem_cons_self c t)
  | cons c t ih =>
    intro xs' ys ys' h hx hx'
    cases xs' with
    | nil =>
      exfalso
      simp only [List.nil_append, List.cons_append, List.cons.injEq] at h
      exact hx (h.1.symm ▸ List.mem_cons_self c t)
    | cons c2 t2 =>
      simp only [List.cons_append, List.cons.injEq] at h
      obtain ⟨h1, h2⟩ := ih t2 h.2 (fun hm => hx (List.mem_cons_of_mem _ hm))
        (fun hm => hx' (List.mem_cons_of_mem _ hm))
      exact ⟨by rw [h.1, h1], h2⟩

/-! ### The glyph cache key (source: `getGlyphCacheKey`) -/

def getGlyphCacheKey (glyph : IGlyphIdentifier) : GlyphCacheKey :=
  natToString glyph.bg ++ "_" ++ natToString glyph.fg ++ "_" ++
    (if glyph.bold then "0" else "1") ++ (if glyph.dim then "0" else "1") ++
    String.singleton glyph.char

lemma getGlyphCacheKey_data (glyph : IGlyphIdentifier) :
    (getGlyphCacheKey glyph).data =
      (natToString glyph.bg).data ++ '_' ::
        ((natToString glyph.fg).data ++ '_' ::
          ((if glyph.bold then '0' else '1') ::
            (if glyph.dim then '0' else '1') :: [glyph.char])) := by
  cases hb : glyph.bold <;> cases hd : glyph.dim <;>
    simp [getGlyphCacheKey, String.data_append, hb, hd, String.singleton]

lemma flagChar_inj (b1 b2 : Bool)
    (h : (if b1 then '0' else '1') = (if b2 then '0' else '1')) : b1 = b2 := by
  cases b1 <;> cases b2 <;> simp_all

lemma getGlyphCacheKey_inj {g1 g2 : IGlyphIdentifier}
    (h : getGlyphCacheKey g1 = getGlyphCacheKey g2) : g1 = g2 := by
  have hd := congrArg String.data h
  rw [getGlyphCacheKey_data, getGlyphCacheKey_data] at hd
  obtain ⟨h1, h2⟩ := append_sep_inj _ _ hd
    (not_underscore_mem_natToString _) (not_underscore_mem_natToString _)
  obtain ⟨h3, h4⟩ := append_sep_inj _ _ h2
    (not_underscore_mem_natToString _) (not_underscore_mem_natToString _)
  simp only [List.cons.injEq] at h4
  have hchar : g1.char = g2.char := h4.2.2.1
  have hbold : g1.bold = g2.bold := flagChar_inj _ _ h4.1
  have hdim : g1.dim = g2.dim := flagChar_inj _ _ h4.2.1
  have hbg : g1.bg = g2.bg := natToString_data_inj h1
  have hfg : g1.fg = g2.fg := natToString_data_inj h3
  cases g1
  cases g2
  simp only [IGlyphIdentifier.mk.injEq]
  exact ⟨hchar, hbg, hfg, hbold, hdim⟩

/-- C6: the glyph key encoder is a pure, total, deterministic function that
is injective on glyph identities: two `IGlyphIdentifier` values produce equal
keys iff they agree on all five fields (bg, fg, bold, dim, char). -/
theorem getGlyphCacheKey_injective_iff (g1 g2 : IGlyphIdentifier) :
    getGlyphCacheKey g1 = getGlyphCacheKey g2 ↔ g1 = g2 :=
  ⟨getGlyphCacheKey_inj, fun h => by rw [h]⟩

/-- Witness for C6 at concrete glyph identities. -/
theorem getGlyphCacheKey_injective_iff_witness :
    getGlyphCacheKey ⟨'a', 0, 7, true, false⟩ = getGlyphCacheKey ⟨'a', 0, 7, true, false⟩ ↔
      (⟨'a', 0, 7, true, false⟩ : IGlyphIdentifier) = ⟨'a', 0, 7, true, false⟩ :=
  getGlyphCacheKey_injective_iff ⟨'a', 0, 7, true, false⟩ ⟨'a', 0, 7, true, false⟩

/-! ### Pixel surfaces

Canvases are total pixel functions; the browser's text rasterizer
(`fillText`) and the compositing rule used by `drawImage` are external to
the repository and therefore parameters (`Browser`). -/

structure Pixel where
  r : Nat
  g : Nat
  b : Nat
  a : Nat
deriving DecidableEq

def Canvas : Type := Nat × Nat → Pixel

def ImageData : Type := Nat × Nat → Pixel

/-- Canvas `fillRect` with an opaque fill style: every pixel of the
rectangle becomes the fill color at alpha 255. -/
def fillRect (c : Canvas) (x y w h : Nat) (col : IColor) : Canvas :=
  fun p =>
    if x ≤ p.1 ∧ p.1 < x + w ∧ y ≤ p.2 ∧ p.2 < y + h then ⟨col.r, col.g, col.b, 255⟩
    else c p

/-- Canvas `getImageData`: reads the rectangle at `(x, y)` into a buffer
addressed relative to the rectangle's origin. -/
def getImageData (c : Canvas) (x y : Nat) : ImageData :=
  fun p => c (x + p.1, y + p.2)

/-- Canvas `putImageData`: writes a `w × h` buffer verbatim at `(x, y)`,
overwriting (no blending). -/
def putImageData (c : Canvas) (img : ImageData) (x y w h : Nat) : Canvas :=
  fun p =>
    if x ≤ p.1 ∧ p.1 < x + w ∧ y ≤ p.2 ∧ p.2 < y + h then img (p.1 - x, p.2 - y)
    else c p

/-- Modelled from the spec: `clearColor` is imported from
`../../shared/atlas/CharAtlasGenerator`, which is not among the sources
here.  Per the spec it converts every pixel exactly matching the fill
background color to fully transparent (alpha 0) and leaves all other pixels
intact. -/
def clearColor (img : ImageData) (bg : IColor) : ImageData :=
  fun p => if img p = ⟨bg.r, bg.g, bg.b, 255⟩ then ⟨bg.r, bg.g, bg.b, 0⟩ else img p

/-- Style state of a 2D context at the moment `fillText` is invoked. -/
structure CtxStyle where
  font : String
  fillStyle : IColor
  textBaseline : String
  globalAlpha : ℚ
deriving DecidableEq

/-- The browser primitives the atlas depends on but which live outside this
repository: the font rasterizer behind `fillText` and the source-over
compositing rule applied per pixel by `drawImage`. -/
structure Browser where
  fillTextImpl : CtxStyle → Char → Nat → Nat → Canvas → Canvas
  compositeImpl : Pixel → Pixel → Pixel

/-- Canvas `drawImage` for equal source/destination extents: each
destination pixel of the rectangle becomes the composite of the
corresponding source pixel over the previous destination pixel. -/
def drawImage (br : Browser) (dest src : Canvas) (sx sy dx dy w h : Nat) : Canvas :=
  fun p =>
    if dx ≤ p.1 ∧ p.1 < dx + w ∧ dy ≤ p.2 ∧ p.2 < dy + h then
      br.compositeImpl (src (sx + (p.1 - dx), sy + (p.2 - dy))) (dest p)
    else dest p

/-! ### The ordered map (JavaScript `Map`, insertion-order iteration) -/

abbrev CacheMap := List (GlyphCacheKey × Nat)

/-- `Map.get`. -/
def mapGet (m : CacheMap) (k : GlyphCacheKey) : Option Nat :=
  (m.find? (fun e => e.1 == k)).map (fun e => e.2)

/-- `Map.delete`: removes the entry for `k` (a JavaScript `Map` holds at
most one). -/
def mapDelete (m : CacheMap) (k : GlyphCacheKey) : CacheMap :=
  m.filter (fun e => ! (e.1 == k))

/-- `Map.set`: updates in place if the key is present, otherwise appends at
the most-recent end. -/
def mapSet (m : CacheMap) (k : GlyphCacheKey) (v : Nat) : CacheMap :=
  if (m.find? (fun e => e.1 == k)).isSome then
    m.map (fun e => if e.1 == k then (k, v) else e)
  else m ++ [(k, v)]

/-- Source `mapShift`: removes and returns the oldest entry of the map
(`undefined`, i.e. `none`, on an empty map).  The mutated map is returned
alongside. -/
def mapShift (m : CacheMap) : Option ((GlyphCacheKey × Nat) × CacheMap) :=
  match m with
  | [] => none
  | e :: rest => some (e, rest)

/-! ### The atlas state (`DynamicCharAtlas`) -/

structure DynamicCharAtlas where
  cacheMap : CacheMap
  cacheCanvasWidth : Nat
  cacheCanvasHeight : Nat
  cacheCanvas : Canvas
  tmpCanvas : Canvas
  rasterizations : Nat

/-- Constructor: fresh canvases are fully transparent; the atlas canvas is
sized by the module constants `TEXTURE_WIDTH`/`TEXTURE_HEIGHT`.
`rasterizations` counts the `_drawToCache` invocations (the spec's
rasterization call counter). -/
def mkDynamicCharAtlas (_config : ICharAtlasConfig) : DynamicCharAtlas :=
  { cacheMap := []
    cacheCanvasWidth := TEXTURE_WIDTH
    cacheCanvasHeight := TEXTURE_HEIGHT
    cacheCanvas := fun _ => ⟨0, 0, 0, 0⟩
    tmpCanvas := fun _ => ⟨0, 0, 0, 0⟩
    rasterizations := 0 }

/-- Source: `this._width = Math.floor(TEXTURE_WIDTH / this._config.scaledCharWidth)`. -/
def gridW (config : ICharAtlasConfig) : Nat := TEXTURE_WIDTH / config.scaledCharWidth

/-- Source: `this._height = Math.floor(TEXTURE_HEIGHT / this._config.scaledCharHeight)`. -/
def gridH (config : ICharAtlasConfig) : Nat := TEXTURE_HEIGHT / config.scaledCharHeight

/-- Source: `this._capacity = this._width * this._height`. -/
def capacity (config : ICharAtlasConfig) : Nat := gridW config * gridH config

/-- Source `_toCoordinates`. -/
def toCoordinates (config : ICharAtlasConfig) (index : Nat) : Nat × Nat :=
  ((index % gridW config) * config.scaledCharWidth,
    (index / gridW config) * config.scaledCharHeight)

/-- First UTF-16 code unit of a character (`charCodeAt(0)` of the one-char
string): the code point itself below 0x10000, else the high surrogate. -/
def charCodeAt0 (c : Char) : Nat :=
  if c.toNat < 65536 then c.toNat else 55296 + (c.toNat - 65536) / 1024

/-- Source `_canCache`: only ascii and extended characters are cached. -/
def canCache (glyph : IGlyphIdentifier) : Bool :=
  charCodeAt0 glyph.char < 256

/-- Source `_drawToCache`: fill the scratch cell with the resolved
background, draw the glyph with the resolved foreground (bold font variant,
top baseline, dim opacity), strip the background to transparency and copy
the buffer into the atlas at the slot's coordinates. -/
def drawToCache (br : Browser) (config : ICharAtlasConfig)
    (st : DynamicCharAtlas) (glyph : IGlyphIdentifier) (index : Nat) :
    DynamicCharAtlas :=
  let backgroundColor :=
    if glyph.bg = INVERTED_DEFAULT_COLOR then config.colors.foreground
    else if glyph.bg < 256 then config.colors.ansi glyph.bg
    else config.colors.background
  let tmp1 := fillRect st.tmpCanvas 0 0 config.scaledCharWidth config.scaledCharHeight
    backgroundColor
  let baseFont := natToString (config.fontSize * config.devicePixelDpr) ++ "px " ++
    config.fontFamily
  let font := if glyph.bold then "bold " ++ baseFont else baseFont
  let fillStyle :=
    if glyph.fg = INVERTED_DEFAULT_COLOR then config.colors.background
    else if glyph.fg < 256 then config.colors.ansi glyph.fg
    else config.colors.foreground
  let globalAlpha : ℚ := if glyph.dim then DIM_OPACITY else 1
  let tmp2 := br.fillTextImpl ⟨font, fillStyle, "top", globalAlpha⟩ glyph.char 0 0 tmp1
  let imageData := getImageData tmp2 0 0
  let imageData2 := clearColor imageData backgroundColor
  let coords := toCoordinates config index
  let cache2 := putImageData st.cacheCanvas imageData2 coords.1 coords.2
    config.scaledCharWidth config.scaledCharHeight
  { st with
    tmpCanvas := tmp2
    cacheCanvas := cache2
    rasterizations := st.rasterizations + 1 }

/-- Source `_drawFromCache`: blit the slot's atlas cell to the destination
at `(x, y)`. -/
def drawFromCache (br : Browser) (config : ICharAtlasConfig)
    (st : DynamicCharAtlas) (ctx : Canvas) (index x y : Nat) : Canvas :=
  let coords := toCoordinates config index
  drawImage br ctx st.cacheCanvas coords.1 coords.2 x y
    config.scaledCharWidth config.scaledCharHeight

/-- Source `draw`.  The result is `none` exactly when the source would
throw: in the eviction branch `mapShift(this._cacheMap)[1]` dereferences
`undefined` if the map is empty. -/
def draw (br : Browser) (config : ICharAtlasConfig) (st : DynamicCharAtlas)
    (ctx : Canvas) (glyph : IGlyphIdentifier) (x y : Nat) :
    Option (Bool × DynamicCharAtlas × Canvas) :=
  let glyphKey := getGlyphCacheKey glyph
  match mapGet st.cacheMap glyphKey with
  | some index =>
    let st1 := { st with cacheMap := mapSet (mapDelete st.cacheMap glyphKey) glyphKey index }
    some (true, st1, drawFromCache br config st1 ctx index x y)
  | none =>
    if canCache glyph then
      if st.cacheMap.length < capacity config then
        let index := st.cacheMap.length
        let st1 := drawToCache br config st glyph index
        let st2 := { st1 with cacheMap := mapSet st1.cacheMap glyphKey index }
        some (true, st2, drawFromCache br config st2 ctx index x y)
      else
        match mapShift st.cacheMap with
        | none => none
        | some (entry, rest) =>
          let index := entry.2
          let st1 := drawToCache br config { st with cacheMap := rest } glyph index
          let st2 := { st1 with cacheMap := mapSet st1.cacheMap glyphKey index }
          some (true, st2, drawFromCache br config st2 ctx index x y)
    else
      some (false, st, ctx)

/-- Folding `draw` over a sequence of (glyph, x, y) requests, propagating
the thrown-exception case. -/
def drawSeq (br : Browser) (config : ICharAtlasConfig) :
    List (IGlyphIdentifier × Nat × Nat) → DynamicCharAtlas → Canvas →
    Option (DynamicCharAtlas × Canvas)
  | [], st, ctx => some (st, ctx)
  | t :: rest, st, ctx =>
    match draw br config st ctx t.1 t.2.1 t.2.2 with
    | none => none
    | some (_, st1, ctx1) => drawSeq br config rest st1 ctx1

/-! ### Basic lemmas about the map operations -/

lemma mapGet_eq_none_iff {m : CacheMap} {k : GlyphCacheKey} :
    mapGet m k = none ↔ ∀ e ∈ m, e.1 ≠ k := by
  simp [mapGet, List.find?_eq_none]

lemma mapGet_cons_self {e : GlyphCacheKey × Nat} {m : CacheMap} {k} (h : e.1 = k) :
    mapGet (e :: m) k = some e.2 := by
  simp [mapGet, List.find?_cons_of_pos, h]

lemma mapGet_cons_ne {e : GlyphCacheKey × Nat} {m : CacheMap} {k} (h : e.1 ≠ k) :
    mapGet (e :: m) k = mapGet m k := by
  simp [mapGet, List.find?_cons_of_neg, h]

lemma mapGet_append (m1 m2 : CacheMap) (k : GlyphCacheKey) :
    mapGet (m1 ++ m2) k = (mapGet m1 k).or (mapGet m2 k) := by
  simp only [mapGet, List.find?_append]
  cases m1.find? (fun e => e.1 == k) <;> simp

lemma mapGet_some_mem {m : CacheMap} {k i} (h : mapGet m k = some i) : (k, i) ∈ m := by
  unfold mapGet at h
  cases hf : m.find? (fun e => e.1 == k) with
  | none => rw [hf] at h; simp at h
  | some e =>
    rw [hf] at h
    simp only [Option.map_some', Option.some.injEq] at h
    have h1 := List.find?_some hf
    have h2 := List.mem_of_find?_eq_some hf
    have he : e = (k, i) := by
      cases e
      simp only [beq_iff_eq] at h1
      simp only [Prod.mk.injEq]
      exact ⟨h1, h⟩
    rwa [he] at h2

lemma mapGet_eq_none_of_absent {m : CacheMap} {k : GlyphCacheKey}
    (h : ∀ e ∈ m, e.1 ≠ k) : mapGet m k = none :=
  mapGet_eq_none_iff.mpr h

lemma find?_mapDelete_self (m : CacheMap) (k : GlyphCacheKey) :
    (mapDelete m k).find? (fun e => e.1 == k) = none := by
  rw [List.find?_eq_none]
  intro e he
  have := List.of_mem_filter he
  simpa using this

lemma mapGet_mapDelete_self (m : CacheMap) (k : GlyphCacheKey) :
    mapGet (mapDelete m k) k = none := by
  simp [mapGet, find?_mapDelete_self]

lemma mapGet_mapDelete_ne (m : CacheMap) {k k' : GlyphCacheKey} (h : k' ≠ k) :
    mapGet (mapDelete m k) k' = mapGet m k' := by
  induction m with
  | nil => rfl
  | cons e rest ih =>
    by_cases he : e.1 = k
    · have : mapDelete (e :: rest) k = mapDelete rest k := by
        simp [mapDelete, List.filter_cons, he]
      rw [this, ih, mapGet_cons_ne]
      rw [he]
      exact fun hk => h hk.symm
    · have : mapDelete (e :: rest) k = e :: mapDelete rest k := by
        simp [mapDelete, List.filter_cons, he]
      by_cases he' : e.1 = k'
      · rw [this, mapGet_cons_self he', mapGet_cons_self he']
      · rw [this, mapGet_cons_ne he', mapGet_cons_ne he', ih]

lemma mapDelete_of_absent {m : CacheMap} {k : GlyphCacheKey}
    (h : ∀ e ∈ m, e.1 ≠ k) : mapDelete m k = m := by
  unfold mapDelete
  rw [List.filter_eq_self]
  intro e he
  simpa using h e he

lemma mapSet_of_absent {m : CacheMap} {k : GlyphCacheKey} (v : Nat)
    (h : mapGet m k = none) : mapSet m k v = m ++ [(k, v)] := by
  unfold mapSet
  have hf : m.find? (fun e => e.1 == k) = none := by
    unfold mapGet at h
    exact Option.map_eq_none'.mp h
  rw [hf]
  simp

lemma mapSet_mapDelete (m : CacheMap) (k : GlyphCacheKey) (i : Nat) :
    mapSet (mapDelete m k) k i = mapDelete m k ++ [(k, i)] := by
  unfold mapSet
  rw [find?_mapDelete_self]
  simp

lemma perm_cons_mapDelete {m : CacheMap} {k : GlyphCacheKey} {i : Nat}
    (hnd : (m.map Prod.fst).Nodup) (h : (k, i) ∈ m) :
    m.Perm ((k, i) :: mapDelete m k) := by
  induction m with
  | nil => cases h
  | cons e rest ih =>
    simp only [List.map_cons, List.nodup_cons] at hnd
    rcases List.mem_cons.mp h with h | h
    · subst h
      have habs : ∀ e ∈ rest, e.1 ≠ (k, i).1 := by
        intro e he hk
        exact hnd.1 (hk ▸ List.mem_map_of_mem Prod.fst he)
      have : mapDelete ((k, i) :: rest) k = mapDelete rest k := by
        simp [mapDelete, List.filter_cons]
      rw [this, mapDelete_of_absent habs]
    · have hek : e.1 ≠ k := by
        intro hk
        exact hnd.1 (hk ▸ (List.mem_map_of_mem Prod.fst h : (k, i).1 ∈ rest.map Prod.fst))
      have : mapDelete (e :: rest) k = e :: mapDelete rest k := by
        simp [mapDelete, List.filter_cons, hek]
      rw [this]
      exact ((ih hnd.2 h).cons e).trans (List.Perm.swap _ _ _)

/-! ### Branch equations for `draw` -/

/-- Result state of the hit branch. -/
def hitState (st : DynamicCharAtlas) (k : GlyphCacheKey) (i : Nat) : DynamicCharAtlas :=
  { st with cacheMap := mapDelete st.cacheMap k ++ [(k, i)] }

/-- Result state of the miss branch while the map is below capacity. -/
def fillState (br : Browser) (config : ICharAtlasConfig) (st : DynamicCharAtlas)
    (glyph : IGlyphIdentifier) : DynamicCharAtlas :=
  { drawToCache br config st glyph st.cacheMap.length with
    cacheMap := st.cacheMap ++ [(getGlyphCacheKey glyph, st.cacheMap.length)] }

/-- Result state of the eviction branch when the map is `entry :: rest`. -/
def evictState (br : Browser) (config : ICharAtlasConfig) (st : DynamicCharAtlas)
    (glyph : IGlyphIdentifier) (entry : GlyphCacheKey × Nat) (rest : CacheMap) :
    DynamicCharAtlas :=
  { drawToCache br config { st with cacheMap := rest } glyph entry.2 with
    cacheMap := rest ++ [(getGlyphCacheKey glyph, entry.2)] }

lemma drawToCache_cacheMap (br : Browser) (config : ICharAtlasConfig)
    (st : DynamicCharAtlas) (glyph : IGlyphIdentifier) (index : Nat) :
    (drawToCache br config st glyph index).cacheMap = st.cacheMap := rfl

lemma draw_hit (br : Browser) (config : ICharAtlasConfig) (st : DynamicCharAtlas)
    (ctx : Canvas) (glyph : IGlyphIdentifier) (x y : Nat) {i : Nat}
    (h : mapGet st.cacheMap (getGlyphCacheKey glyph) = some i) :
    draw br config st ctx glyph x y =
      some (true, hitState st (getGlyphCacheKey glyph) i,
        drawFromCache br config (hitState st (getGlyphCacheKey glyph) i) ctx i x y) := by
  simp only [draw, h, mapSet_mapDelete, hitState]

lemma draw_miss_fill (br : Browser) (config : ICharAtlasConfig) (st : DynamicCharAtlas)
    (ctx : Canvas) (glyph : IGlyphIdentifier) (x y : Nat)
    (h : mapGet st.cacheMap (getGlyphCacheKey glyph) = none)
    (hc : canCache glyph = true)
    (hlen : st.cacheMap.length < capacity config) :
    draw br config st ctx glyph x y =
      some (true, fillState br config st glyph,
        drawFromCache br config (fillState br config st glyph) ctx st.cacheMap.length x y) := by
  simp only [draw, h, hc, if_true, hlen, if_pos, fillState, drawToCache_cacheMap,
    mapSet_of_absent _ h]

lemma draw_miss_evict (br : Browser) (config : ICharAtlasConfig) (st : DynamicCharAtlas)
    (ctx : Canvas) (glyph : IGlyphIdentifier) (x y : Nat)
    {entry : GlyphCacheKey × Nat} {rest : CacheMap}
    (h : mapGet st.cacheMap (getGlyphCacheKey glyph) = none)
    (hc : canCache glyph = true)
    (hlen : ¬ st.cacheMap.length < capacity config)
    (hm : st.cacheMap = entry :: rest) :
    draw br config st ctx glyph x y =
      some (true, evictState br config st glyph entry rest,
        drawFromCache br config (evictState br config st glyph entry rest) ctx entry.2 x y) := by
  have h' : mapGet (entry :: rest) (getGlyphCacheKey glyph) = none := hm ▸ h
  have hrest : mapGet rest (getGlyphCacheKey glyph) = none := by
    apply mapGet_eq_none_of_absent
    intro e he
    exact mapGet_eq_none_iff.mp h' e (List.mem_cons_of_mem _ he)
  have hlen' : ¬ (entry :: rest).length < capacity config := by
    rw [← hm]
    exact hlen
  simp only [draw, hm, h', hc, if_true, mapShift, evictState, drawToCache_cacheMap,
    mapSet_of_absent _ hrest, hlen', ite_false]

lemma draw_miss_uncacheable (br : Browser) (config : ICharAtlasConfig)
    (st : DynamicCharAtlas) (ctx : Canvas) (glyph : IGlyphIdentifier) (x y : Nat)
    (h : mapGet st.cacheMap (getGlyphCacheKey glyph) = none)
    (hc : canCache glyph = false) :
    draw br config st ctx glyph x y = some (false, st, ctx) := by
  simp only [draw, h, hc]
  simp

lemma draw_crash (br : Browser) (config : ICharAtlasConfig) (st : DynamicCharAtlas)
    (ctx : Canvas) (glyph : IGlyphIdentifier) (x y : Nat)
    (_h : mapGet st.cacheMap (getGlyphCacheKey glyph) = none)
    (hc : canCache glyph = true)
    (hlen : ¬ st.cacheMap.length < capacity config)
    (hm : st.cacheMap = []) :
    draw br config st ctx glyph x y = none := by
  have h' : mapGet ([] : CacheMap) (getGlyphCacheKey glyph) = none := rfl
  have hlen' : ¬ ([] : CacheMap).length < capacity config := by
    rw [← hm]
    exact hlen
  simp only [draw, hm, h', hc, if_true, mapShift, hlen', ite_false]

/-- States reachable from a fresh cache by `draw` calls that return. -/
inductive Reachable (br : Browser) (config : ICharAtlasConfig) :
    DynamicCharAtlas → Prop
  | fresh : Reachable br config (mkDynamicCharAtlas config)
  | step {st ctx glyph x y b st1 ctx1} : Reachable br config st →
      draw br config st ctx glyph x y = some (b, st1, ctx1) →
      Reachable br config st1

/-! ### Concrete fixtures for witnesses and counterexamples -/

/-- Simple theme used by concrete scenarios. -/
def colors0 : IColorSet :=
  { foreground := ⟨255, 255, 255⟩
    background := ⟨0, 0, 0⟩
    ansi := fun i => ⟨i % 256, 0, 0⟩ }

/-- Degenerate browser: the text rasterizer leaves the canvas unchanged and
compositing keeps the source pixel. -/
def trivialBrowser : Browser :=
  { fillTextImpl := fun _ _ _ _ c => c
    compositeImpl := fun s _ => s }

def blankCtx : Canvas := fun _ => ⟨0, 0, 0, 0⟩

/-- Cell 1024 × 1024: capacity 1. -/
def cfg1024 : ICharAtlasConfig :=
  { scaledCharWidth := 1024, scaledCharHeight := 1024, fontFamily := "monospace",
    fontSize := 12, devicePixelDpr := 1, colors := colors0 }

/-- Cell 512 × 512: capacity 4. -/
def cfg512 : ICharAtlasConfig :=
  { scaledCharWidth := 512, scaledCharHeight := 512, fontFamily := "monospace",
    fontSize := 12, devicePixelDpr := 1, colors := colors0 }

/-- Cell 512 × 1024: capacity 2. -/
def cfgTwo : ICharAtlasConfig :=
  { scaledCharWidth := 512, scaledCharHeight := 1024, fontFamily := "monospace",
    fontSize := 12, devicePixelDpr := 1, colors := colors0 }

/-- Cell 2048 × 2048, larger than the texture: capacity 0. -/
def cfgHuge : ICharAtlasConfig :=
  { scaledCharWidth := 2048, scaledCharHeight := 2048, fontFamily := "monospace",
    fontSize := 12, devicePixelDpr := 1, colors := colors0 }

def glyphA : IGlyphIdentifier := ⟨'a', 0, 0, false, false⟩

def glyphB : IGlyphIdentifier := ⟨'b', 0, 0, false, false⟩

def glyphC : IGlyphIdentifier := ⟨'c', 0, 0, false, false⟩

/-- Code point 256 (U+0100): rejected by `canCache`. -/
def glyphWide : IGlyphIdentifier := ⟨'Ā', 0, 0, false, false⟩

/-! ### C4: the false-return contract of `draw` -/

lemma draw_false_inv {br : Browser} {config : ICharAtlasConfig}
    {st : DynamicCharAtlas} {ctx : Canvas} {glyph : IGlyphIdentifier} {x y : Nat}
    {st1 : DynamicCharAtlas} {ctx1 : Canvas}
    (hdraw : draw br config st ctx glyph x y = some (false, st1, ctx1)) :
    mapGet st.cacheMap (getGlyphCacheKey glyph) = none ∧ canCache glyph = false ∧
      st1 = st ∧ ctx1 = ctx := by
  cases hget : mapGet st.cacheMap (getGlyphCacheKey glyph) with
  | some i =>
    rw [draw_hit br config st ctx glyph x y hget] at hdraw
    simp at hdraw
  | none =>
    cases hc : canCache glyph with
    | true =>
      by_cases hlen : st.cacheMap.length < capacity config
      · rw [draw_miss_fill br config st ctx glyph x y hget hc hlen] at hdraw
        simp at hdraw
      · cases hm : st.cacheMap with
        | nil =>
          rw [draw_crash br config st ctx glyph x y hget hc hlen hm] at hdraw
          simp at hdraw
        | cons entry rest =>
          rw [draw_miss_evict br config st ctx glyph x y hget hc hlen hm] at hdraw
          simp at hdraw
    | false =>
      rw [draw_miss_uncacheable br config st ctx glyph x y hget hc] at hdraw
      simp only [Option.some.injEq, Prod.mk.injEq, true_and] at hdraw
      exact ⟨rfl, rfl, hdraw.1.symm, hdraw.2.symm⟩

/-- C4: `draw` returns `false` iff the glyph's key is not in the cache map
and `canCache` rejects the glyph; `canCache` accepts exactly the glyphs
whose character's first code unit is below 256, independently of bg, fg,
bold and dim; and whenever `draw` returns `false` the cache state (map and
atlas) and the destination are left unchanged. -/
theorem draw_false_iff (br : Browser) (config : ICharAtlasConfig)
    (st : DynamicCharAtlas) (ctx : Canvas) (glyph : IGlyphIdentifier) (x y : Nat) :
    ((∃ st1 ctx1, draw br config st ctx glyph x y = some (false, st1, ctx1)) ↔
      (mapGet st.cacheMap (getGlyphCacheKey glyph) = none ∧ canCache glyph = false))
    ∧ (∀ st1 ctx1, draw br config st ctx glyph x y = some (false, st1, ctx1) →
        st1 = st ∧ ctx1 = ctx)
    ∧ (canCache glyph = true ↔ charCodeAt0 glyph.char < 256)
    ∧ (∀ bg fg bold dim,
        canCache ⟨glyph.char, bg, fg, bold, dim⟩ = canCache glyph) := by
  refine ⟨⟨?_, ?_⟩, ?_, ?_, ?_⟩
  · rintro ⟨st1, ctx1, hdraw⟩
    have h := draw_false_inv hdraw
    exact ⟨h.1, h.2.1⟩
  · rintro ⟨h1, h2⟩
    exact ⟨st, ctx, draw_miss_uncacheable br config st ctx glyph x y h1 h2⟩
  · intro st1 ctx1 hdraw
    have h := draw_false_inv hdraw
    exact ⟨h.2.2.1, h.2.2.2⟩
  · simp [canCache]
  · intro bg fg bold dim
    rfl

/-- Witness for C4: on a fresh capacity-4 cache, drawing the glyph U+0100
returns `false` (checked by evaluation), and the theorem recovers that its
key was absent and `canCache` rejected it. -/
theorem draw_false_iff_witness :
    mapGet (mkDynamicCharAtlas cfg512).cacheMap (getGlyphCacheKey glyphWide) = none ∧
      canCache glyphWide = false :=
  (draw_false_iff trivialBrowser cfg512 (mkDynamicCharAtlas cfg512) blankCtx
    glyphWide 3 5).1.mp ⟨mkDynamicCharAtlas cfg512, blankCtx, rfl⟩

/-! ### C9: the eviction branch dereferences `undefined` at capacity 0 -/

/-- C9: the claim that `draw` never throws fails on the code: with positive
cell dimensions 2048 × 2048 (capacity 0), drawing the cacheable glyph `a`
on a fresh cache reaches `mapShift` on an empty map, and the source then
evaluates `undefined[1]`, throwing a TypeError (modelled as `none`). -/
theorem draw_throws_at_capacity_zero :
    draw trivialBrowser cfgHuge (mkDynamicCharAtlas cfgHuge) blankCtx glyphA 0 0 = none :=
  draw_crash trivialBrowser cfgHuge (mkDynamicCharAtlas cfgHuge) blankCtx glyphA 0 0
    rfl (by decide) (by decide) rfl

/-! ### C7: slot geometry -/

/-- Membership of a pixel in the cell rectangle of slot `s`. -/
abbrev inSlotRect (config : ICharAtlasConfig) (s px py : Nat) : Prop :=
  (toCoordinates config s).1 ≤ px ∧
    px < (toCoordinates config s).1 + config.scaledCharWidth ∧
    (toCoordinates config s).2 ≤ py ∧
    py < (toCoordinates config s).2 + config.scaledCharHeight

lemma mul_interval_eq {a b p k : Nat} (ha : a * k ≤ p) (ha2 : p < a * k + k)
    (hb : b * k ≤ p) (hb2 : p < b * k + k) : a = b := by
  rcases Nat.lt_trichotomy a b with h | h | h
  · exfalso
    have : (a + 1) * k ≤ b * k := Nat.mul_le_mul_right k h
    rw [Nat.succ_mul] at this
    omega
  · exact h
  · exfalso
    have : (b + 1) * k ≤ a * k := Nat.mul_le_mul_right k h
    rw [Nat.succ_mul] at this
    omega

lemma gridW_pos {config : ICharAtlasConfig} {s : Nat} (hs : s < capacity config) :
    0 < gridW config := by
  by_contra h
  push_neg at h
  interval_cases hgw : gridW config
  · rw [capacity, hgw] at hs
    omega

lemma gridH_pos {config : ICharAtlasConfig} {s : Nat} (hs : s < capacity config) :
    0 < gridH config := by
  by_contra h
  push_neg at h
  interval_cases hgh : gridH config
  · rw [capacity, hgh] at hs
    omega

lemma toCoordinates_inj (config : ICharAtlasConfig)
    (hw : 0 < config.scaledCharWidth) (hh : 0 < config.scaledCharHeight)
    {s1 s2 : Nat} (hs1 : s1 < capacity config) (_hs2 : s2 < capacity config)
    (h : toCoordinates config s1 = toCoordinates config s2) : s1 = s2 := by
  have hgw : 0 < gridW config := gridW_pos hs1
  simp only [toCoordinates, Prod.mk.injEq] at h
  have hmod : s1 % gridW config = s2 % gridW config :=
    Nat.eq_of_mul_eq_mul_right hw h.1
  have hdiv : s1 / gridW config = s2 / gridW config :=
    Nat.eq_of_mul_eq_mul_right hh h.2
  calc s1 = gridW config * (s1 / gridW config) + s1 % gridW config :=
        (Nat.div_add_mod s1 (gridW config)).symm
    _ = gridW config * (s2 / gridW config) + s2 % gridW config := by rw [hdiv, hmod]
    _ = s2 := Nat.div_add_mod s2 (gridW config)

lemma toCoordinates_bounds (config : ICharAtlasConfig) {s : Nat}
    (hs : s < capacity config) :
    (toCoordinates config s).1 + config.scaledCharWidth ≤ TEXTURE_WIDTH ∧
      (toCoordinates config s).2 + config.scaledCharHeight ≤ TEXTURE_HEIGHT := by
  have hgw : 0 < gridW config := gridW_pos hs
  have hgh : 0 < gridH config := gridH_pos hs
  constructor
  · have h1 : s % gridW config + 1 ≤ gridW config := Nat.mod_lt s hgw
    have h2 : (s % gridW config + 1) * config.scaledCharWidth ≤
        gridW config * config.scaledCharWidth :=
      Nat.mul_le_mul_right _ h1
    have h3 : gridW config * config.scaledCharWidth ≤ TEXTURE_WIDTH :=
      Nat.div_mul_le_self TEXTURE_WIDTH config.scaledCharWidth
    simp only [toCoordinates]
    calc s % gridW config * config.scaledCharWidth + config.scaledCharWidth
        = (s % gridW config + 1) * config.scaledCharWidth := by ring
      _ ≤ gridW config * config.scaledCharWidth := h2
      _ ≤ TEXTURE_WIDTH := h3
  · have h1 : s / gridW config < gridH config := by
      rw [Nat.div_lt_iff_lt_mul hgw]
      calc s < capacity config := hs
        _ = gridH config * gridW config := by rw [capacity]; ring
    have h2 : (s / gridW config + 1) * config.scaledCharHeight ≤
        gridH config * config.scaledCharHeight :=
      Nat.mul_le_mul_right _ h1
    have h3 : gridH config * config.scaledCharHeight ≤ TEXTURE_HEIGHT :=
      Nat.div_mul_le_self TEXTURE_HEIGHT config.scaledCharHeight
    simp only [toCoordinates]
    calc s / gridW config * config.scaledCharHeight + config.scaledCharHeight
        = (s / gridW config + 1) * config.scaledCharHeight := by ring
      _ ≤ gridH config * config.scaledCharHeight := h2
      _ ≤ TEXTURE_HEIGHT := h3

/-- C7: the slot-to-coordinates map is injective over `[0, capacity)`, each
slot's cell rectangle lies within the texture bounds, and the rectangles of
distinct slots are disjoint. -/
theorem toCoordinates_geometry (config : ICharAtlasConfig)
    (hw : 0 < config.scaledCharWidth) (hh : 0 < config.scaledCharHeight) :
    (∀ s1 s2, s1 < capacity config → s2 < capacity config →
      toCoordinates config s1 = toCoordinates config s2 → s1 = s2)
    ∧ (∀ s, s < capacity config →
        (toCoordinates config s).1 + config.scaledCharWidth ≤ TEXTURE_WIDTH ∧
        (toCoordinates config s).2 + config.scaledCharHeight ≤ TEXTURE_HEIGHT)
    ∧ (∀ s1 s2, s1 < capacity config → s2 < capacity config → s1 ≠ s2 →
        ∀ px py, ¬ (inSlotRect config s1 px py ∧ inSlotRect config s2 px py)) := by
  refine ⟨fun s1 s2 h1 h2 h => toCoordinates_inj config hw hh h1 h2 h,
    fun s hs => toCoordinates_bounds config hs, ?_⟩
  intro s1 s2 h1 h2 hne px py ⟨hr1, hr2⟩
  apply hne
  apply toCoordinates_inj config hw hh h1 h2
  simp only [toCoordinates] at hr1 hr2 ⊢
  have hcol : s1 % gridW config = s2 % gridW config :=
    mul_interval_eq hr1.1 hr1.2.1 hr2.1 hr2.2.1
  have hrow : s1 / gridW config = s2 / gridW config :=
    mul_interval_eq hr1.2.2.1 hr1.2.2.2 hr2.2.2.1 hr2.2.2.2
  rw [Prod.mk.injEq]
  exact ⟨by rw [hcol], by rw [hrow]⟩

/-- Witness for C7: in the 512-cell configuration, slot 3 occupies the
bottom-right cell and stays within the 1024 × 1024 texture. -/
theorem toCoordinates_geometry_witness :
    (toCoordinates cfg512 3).1 + cfg512.scaledCharWidth ≤ TEXTURE_WIDTH ∧
      (toCoordinates cfg512 3).2 + cfg512.scaledCharHeight ≤ TEXTURE_HEIGHT :=
  (toCoordinates_geometry cfg512 (by decide) (by decide)).2.1 3 (by decide)

/-! ### C10: the texture dimensions are module constants -/

/-- C10 counterexample: the texture dimensions cannot be overridden per
cache instance.  Two different construction configurations both produce a
1024 × 1024 atlas surface, and a configuration meant to give a tiny
one-cell atlas (cell 512 × 512) still gets the constant-sized texture,
with capacity 4 rather than the 1 a 512 × 512 texture would give. -/
theorem texture_not_per_instance :
    cfg1024 ≠ cfg512 ∧
      (mkDynamicCharAtlas cfg1024).cacheCanvasWidth = 1024 ∧
      (mkDynamicCharAtlas cfg1024).cacheCanvasHeight = 1024 ∧
      (mkDynamicCharAtlas cfg512).cacheCanvasWidth = 1024 ∧
      (mkDynamicCharAtlas cfg512).cacheCanvasHeight = 1024 ∧
      capacity cfg512 = 4 := by
  refine ⟨?_, rfl, rfl, rfl, rfl, rfl⟩
  intro h
  have h2 := congrArg ICharAtlasConfig.scaledCharWidth h
  simp [cfg1024, cfg512] at h2

/-- C10 (amended): the texture dimensions are module-level constants,
1024 × 1024; every constructed instance gets an atlas surface of exactly
these constant dimensions, and the derived capacity is
`floor(1024 / cellWidth) * floor(1024 / cellHeight)`. -/
theorem texture_constants (config : ICharAtlasConfig) :
    TEXTURE_WIDTH = 1024 ∧ TEXTURE_HEIGHT = 1024 ∧
      (mkDynamicCharAtlas config).cacheCanvasWidth = TEXTURE_WIDTH ∧
      (mkDynamicCharAtlas config).cacheCanvasHeight = TEXTURE_HEIGHT ∧
      capacity config =
        (TEXTURE_WIDTH / config.scaledCharWidth) *
          (TEXTURE_HEIGHT / config.scaledCharHeight) :=
  ⟨rfl, rfl, rfl, rfl, rfl⟩

/-! ### C1: filling a fresh cache, then the first eviction -/

lemma keys_nodup_of_glyphs_distinct {ts : List (IGlyphIdentifier × Nat × Nat)}
    (h : ts.Pairwise (fun a b => a.1 ≠ b.1)) :
    (ts.map fun t => getGlyphCacheKey t.1).Nodup := by
  rw [List.Nodup, List.pairwise_map]
  exact h.imp (fun hne hkey => hne (getGlyphCacheKey_inj hkey))

lemma drawSeq_fill (br : Browser) (config : ICharAtlasConfig)
    (ts : List (IGlyphIdentifier × Nat × Nat)) :
    ∀ (st : DynamicCharAtlas) (ctx : Canvas),
    (∀ t ∈ ts, canCache t.1 = true) →
    (ts.map fun t => getGlyphCacheKey t.1).Nodup →
    (∀ t ∈ ts, mapGet st.cacheMap (getGlyphCacheKey t.1) = none) →
    st.cacheMap.length + ts.length ≤ capacity config →
    ∃ st1 ctx1, drawSeq br config ts st ctx = some (st1, ctx1) ∧
      st1.cacheMap = st.cacheMap ++
        (ts.map fun t => getGlyphCacheKey t.1).zip
          (List.range' st.cacheMap.length ts.length) := by
  induction ts with
  | nil =>
    intro st ctx _ _ _ _
    exact ⟨st, ctx, rfl, by simp⟩
  | cons t rest ih =>
    intro st ctx hcc hnd habs hlen
    have h1 : mapGet st.cacheMap (getGlyphCacheKey t.1) = none :=
      habs t (List.mem_cons_self t rest)
    have h2 : canCache t.1 = true := hcc t (List.mem_cons_self t rest)
    have h3 : st.cacheMap.length < capacity config := by
      simp only [List.length_cons] at hlen
      omega
    have hdraw := draw_miss_fill br config st ctx t.1 t.2.1 t.2.2 h1 h2 h3
    have hmap : (fillState br config st t.1).cacheMap =
        st.cacheMap ++ [(getGlyphCacheKey t.1, st.cacheMap.length)] := rfl
    simp only [List.map_cons, List.nodup_cons] at hnd
    have habs' : ∀ t' ∈ rest,
        mapGet (fillState br config st t.1).cacheMap (getGlyphCacheKey t'.1) = none := by
      intro t' ht'
      rw [hmap, mapGet_append, habs t' (List.mem_cons_of_mem t ht')]
      have hne : (getGlyphCacheKey t.1, st.cacheMap.length).1 ≠ getGlyphCacheKey t'.1 := by
        intro he
        have he' : getGlyphCacheKey t.1 = getGlyphCacheKey t'.1 := he
        exact hnd.1 (List.mem_map.mpr ⟨t', ht', he'.symm⟩)
      rw [@mapGet_cons_ne (getGlyphCacheKey t.1, st.cacheMap.length) []
        (getGlyphCacheKey t'.1) hne]
      rfl
    have hlen' : (fillState br config st t.1).cacheMap.length + rest.length ≤
        capacity config := by
      have hL : (fillState br config st t.1).cacheMap.length = st.cacheMap.length + 1 := by
        rw [hmap]
        simp
      rw [hL]
      simp only [List.length_cons] at hlen
      omega
    obtain ⟨st1, ctx1, hseq, hchar⟩ := ih (fillState br config st t.1)
      (drawFromCache br config (fillState br config st t.1) ctx st.cacheMap.length
        t.2.1 t.2.2) (fun t' ht' => hcc t' (List.mem_cons_of_mem t ht')) hnd.2 habs' hlen'
    refine ⟨st1, ctx1, ?_, ?_⟩
    · simp only [drawSeq, hdraw]
      exact hseq
    · rw [hchar, hmap]
      have hL : (st.cacheMap ++ [(getGlyphCacheKey t.1, st.cacheMap.length)]).length
          = st.cacheMap.length + 1 := by simp
      rw [hL, List.map_cons, List.length_cons, List.range'_succ, List.zip_cons_cons]
      simp

/-- C1: starting from a fresh cache whose capacity is at least 1, drawing
`capacity` distinct cacheable glyphs evicts nothing and assigns the slots
monotonically 0, 1, 2, ...; drawing one further distinct cacheable glyph
evicts exactly the first-drawn (least-recently-accessed) key and reuses its
slot 0 for the new key. -/
theorem lru_fill_then_first_eviction (br : Browser) (config : ICharAtlasConfig)
    (t0 : IGlyphIdentifier × Nat × Nat) (rest : List (IGlyphIdentifier × Nat × Nat))
    (g : IGlyphIdentifier) (ctx : Canvas) (x y : Nat)
    (hlen : (t0 :: rest).length = capacity config)
    (hcc : ∀ t ∈ t0 :: rest, canCache t.1 = true)
    (hccg : canCache g = true)
    (hdist : (t0 :: rest).Pairwise (fun a b => a.1 ≠ b.1))
    (hg : ∀ t ∈ t0 :: rest, t.1 ≠ g) :
    ∃ st1 ctx1,
      drawSeq br config (t0 :: rest) (mkDynamicCharAtlas config) ctx = some (st1, ctx1) ∧
      st1.cacheMap =
        (((t0 :: rest).map fun t => getGlyphCacheKey t.1).zip
          (List.range (t0 :: rest).length)) ∧
      ∃ st2 ctx2,
        draw br config st1 ctx1 g x y = some (true, st2, ctx2) ∧
        st2.cacheMap =
          ((rest.map fun t => getGlyphCacheKey t.1).zip (List.range' 1 rest.length)) ++
            [(getGlyphCacheKey g, 0)] ∧
        mapGet st2.cacheMap (getGlyphCacheKey t0.1) = none := by
  have hnd := keys_nodup_of_glyphs_distinct hdist
  obtain ⟨st1, ctx1, hseq, hchar⟩ := drawSeq_fill br config (t0 :: rest)
    (mkDynamicCharAtlas config) ctx hcc hnd (fun _ _ => rfl)
    (by
      have h0 : (mkDynamicCharAtlas config).cacheMap.length = 0 := rfl
      rw [h0, hlen]
      omega)
  have hchar1 : st1.cacheMap =
      ((t0 :: rest).map fun t => getGlyphCacheKey t.1).zip
        (List.range (t0 :: rest).length) := by
    rw [hchar]
    simp [mkDynamicCharAtlas, List.range_eq_range']
  refine ⟨st1, ctx1, hseq, hchar1, ?_⟩
  -- the (capacity+1)th draw takes the eviction branch
  have hkeys : st1.cacheMap.map Prod.fst = (t0 :: rest).map fun t => getGlyphCacheKey t.1 := by
    rw [hchar1]
    apply List.map_fst_zip
    simp
  have hglen : st1.cacheMap.length = capacity config := by
    rw [hchar1, List.length_zip]
    simp [hlen.symm]
  have habsg : mapGet st1.cacheMap (getGlyphCacheKey g) = none := by
    apply mapGet_eq_none_of_absent
    intro e he
    have : e.1 ∈ st1.cacheMap.map Prod.fst := List.mem_map_of_mem Prod.fst he
    rw [hkeys] at this
    obtain ⟨t, ht, hkey⟩ := List.mem_map.mp this
    intro hcontra
    exact hg t ht (getGlyphCacheKey_inj (hkey.trans hcontra))
  have hnotlt : ¬ st1.cacheMap.length < capacity config := by
    rw [hglen]
    omega
  have hcons : st1.cacheMap =
      (getGlyphCacheKey t0.1, 0) ::
        ((rest.map fun t => getGlyphCacheKey t.1).zip (List.range' 1 rest.length)) := by
    rw [hchar1]
    simp only [List.map_cons, List.length_cons, List.range_eq_range', List.range'_succ,
      List.zip_cons_cons]
  have hdraw := draw_miss_evict br config st1 ctx1 g x y habsg hccg hnotlt hcons
  refine ⟨_, _, hdraw, rfl, ?_⟩
  -- the first key is gone from the post-eviction map
  apply mapGet_eq_none_of_absent
  intro e he
  simp only [evictState] at he
  rcases List.mem_append.mp he with he | he
  · have : e.1 ∈ (rest.map fun t => getGlyphCacheKey t.1) := by
      have h1 := List.of_mem_zip he
      exact h1.1
    simp only [List.map_cons, List.nodup_cons] at hnd
    intro hcontra
    exact hnd.1 (hcontra ▸ this)
  · rw [List.mem_singleton] at he
    rw [he]
    intro hcontra
    have hcontra' : getGlyphCacheKey t0.1 = getGlyphCacheKey g := hcontra.symm
    exact hg t0 (List.mem_cons_self t0 rest) (getGlyphCacheKey_inj hcontra')

/-- Witness for C1: capacity-1 cache; drawing `a` fills slot 0, then
drawing `b` evicts `a` and reuses slot 0. -/
theorem lru_fill_then_first_eviction_witness :
    ∃ st1 ctx1,
      drawSeq trivialBrowser cfg1024 [(glyphA, 0, 0)] (mkDynamicCharAtlas cfg1024)
        blankCtx = some (st1, ctx1) ∧
      st1.cacheMap = [(getGlyphCacheKey glyphA, 0)] ∧
      ∃ st2 ctx2,
        draw trivialBrowser cfg1024 st1 ctx1 glyphB 0 0 = some (true, st2, ctx2) ∧
        st2.cacheMap = [(getGlyphCacheKey glyphB, 0)] ∧
        mapGet st2.cacheMap (getGlyphCacheKey glyphA) = none :=
  lru_fill_then_first_eviction trivialBrowser cfg1024 (glyphA, 0, 0) [] glyphB
    blankCtx 0 0 rfl (by intro t ht; rw [List.mem_singleton] at ht; rw [ht]; decide)
    (by decide) (by simp) (by intro t ht; rw [List.mem_singleton] at ht; rw [ht]; decide)

/-! ### C3: invariants of every reachable state -/

/-- Strengthened invariant: keys are distinct, the multiset of slots is
exactly `{0, ..., size-1}`, and the size is at most the capacity. -/
def MapInv (config : ICharAtlasConfig) (m : CacheMap) : Prop :=
  (m.map Prod.fst).Nodup ∧ (m.map Prod.snd).Perm (List.range m.length) ∧
    m.length ≤ capacity config

lemma mapDelete_keys_sublist (m : CacheMap) (k : GlyphCacheKey) :
    ((mapDelete m k).map Prod.fst).Sublist (m.map Prod.fst) :=
  (List.filter_sublist m).map Prod.fst

lemma key_not_mem_mapDelete (m : CacheMap) (k : GlyphCacheKey) :
    k ∉ (mapDelete m k).map Prod.fst := by
  intro hmem
  obtain ⟨e, he, hk⟩ := List.mem_map.mp hmem
  have := List.of_mem_filter he
  rw [hk] at this
  simp at this

lemma mapInv_hit {config : ICharAtlasConfig} {m : CacheMap} {k : GlyphCacheKey}
    {i : Nat} (hinv : MapInv config m) (hget : mapGet m k = some i) :
    MapInv config (mapDelete m k ++ [(k, i)]) := by
  obtain ⟨hnd, hperm, hlen⟩ := hinv
  have hmem : (k, i) ∈ m := mapGet_some_mem hget
  have hp : m.Perm ((k, i) :: mapDelete m k) := perm_cons_mapDelete hnd hmem
  have hp2 : (mapDelete m k ++ [(k, i)]).Perm m :=
    (List.perm_append_singleton _ _).trans hp.symm
  have hL : (mapDelete m k ++ [(k, i)]).length = m.length := hp2.length_eq
  refine ⟨?_, ?_, by omega⟩
  · exact (hp2.map Prod.fst).symm.nodup hnd
  · rw [hL]
    exact (hp2.map Prod.snd).trans hperm

lemma mapInv_fill {config : ICharAtlasConfig} {m : CacheMap} {k : GlyphCacheKey}
    (hinv : MapInv config m) (hget : mapGet m k = none)
    (hlen : m.length < capacity config) :
    MapInv config (m ++ [(k, m.length)]) := by
  obtain ⟨hnd, hperm, _⟩ := hinv
  have habs : ∀ e ∈ m, e.1 ≠ k := mapGet_eq_none_iff.mp hget
  refine ⟨?_, ?_, by simp; omega⟩
  · rw [List.map_append]
    simp only [List.map_singleton]
    refine hnd.append (List.nodup_singleton k) ?_
    rw [List.disjoint_singleton]
    intro hmem
    obtain ⟨e, he, hk⟩ := List.mem_map.mp hmem
    exact habs e he hk
  · rw [List.map_append, List.length_append]
    simp only [List.map_singleton, List.length_singleton, List.range_succ]
    exact hperm.append (List.Perm.refl _)

lemma mapInv_evict {config : ICharAtlasConfig} {entry : GlyphCacheKey × Nat}
    {rest : CacheMap} {k : GlyphCacheKey}
    (hinv : MapInv config (entry :: rest)) (hget : mapGet (entry :: rest) k = none) :
    MapInv config (rest ++ [(k, entry.2)]) := by
  obtain ⟨hnd, hperm, hlen⟩ := hinv
  have habs : ∀ e ∈ entry :: rest, e.1 ≠ k := mapGet_eq_none_iff.mp hget
  simp only [List.map_cons, List.nodup_cons] at hnd
  have hp : (rest ++ [(k, entry.2)]).Perm ((k, entry.2) :: rest) :=
    List.perm_append_singleton _ _
  have hL : (rest ++ [(k, entry.2)]).length = (entry :: rest).length := by simp
  refine ⟨?_, ?_, by omega⟩
  · apply (hp.map Prod.fst).symm.nodup
    simp only [List.map_cons, List.nodup_cons]
    refine ⟨?_, hnd.2⟩
    intro hmem
    obtain ⟨e, he, hk⟩ := List.mem_map.mp hmem
    exact habs e (List.mem_cons_of_mem entry he) hk
  · rw [hL]
    refine (hp.map Prod.snd).trans ?_
    simp only [List.map_cons]
    exact hperm

lemma mapInv_preserved {br : Browser} {config : ICharAtlasConfig}
    {st : DynamicCharAtlas} {ctx : Canvas} {glyph : IGlyphIdentifier} {x y : Nat}
    {b : Bool} {st1 : DynamicCharAtlas} {ctx1 : Canvas}
    (hdraw : draw br config st ctx glyph x y = some (b, st1, ctx1))
    (hinv : MapInv config st.cacheMap) : MapInv config st1.cacheMap := by
  cases hget : mapGet st.cacheMap (getGlyphCacheKey glyph) with
  | some i =>
    rw [draw_hit br config st ctx glyph x y hget] at hdraw
    simp only [Option.some.injEq, Prod.mk.injEq] at hdraw
    rw [← hdraw.2.1]
    exact mapInv_hit hinv hget
  | none =>
    cases hc : canCache glyph with
    | true =>
      by_cases hlen : st.cacheMap.length < capacity config
      · rw [draw_miss_fill br config st ctx glyph x y hget hc hlen] at hdraw
        simp only [Option.some.injEq, Prod.mk.injEq] at hdraw
        rw [← hdraw.2.1]
        exact mapInv_fill hinv hget hlen
      · cases hm : st.cacheMap with
        | nil =>
          rw [draw_crash br config st ctx glyph x y hget hc hlen hm] at hdraw
          simp at hdraw
        | cons entry rest =>
          rw [draw_miss_evict br config st ctx glyph x y hget hc hlen hm] at hdraw
          simp only [Option.some.injEq, Prod.mk.injEq] at hdraw
          rw [← hdraw.2.1]
          rw [hm] at hinv hget
          exact mapInv_evict hinv hget
    | false =>
      rw [draw_miss_uncacheable br config st ctx glyph x y hget hc] at hdraw
      simp only [Option.some.injEq, Prod.mk.injEq] at hdraw
      rw [← hdraw.2.1]
      exact hinv

lemma reachable_mapInv {br : Browser} {config : ICharAtlasConfig}
    {st : DynamicCharAtlas} (h : Reachable br config st) :
    MapInv config st.cacheMap := by
  induction h with
  | fresh =>
    refine ⟨List.nodup_nil, ?_, ?_⟩
    · exact List.Perm.refl _
    · have h0 : (mkDynamicCharAtlas config).cacheMap.length = 0 := rfl
      omega
  | step _ hdraw ih => exact mapInv_preserved hdraw ih

/-- C3: in every state reachable by `draw` calls from a fresh cache, the
map's size is at most the capacity, every stored slot lies in
`[0, capacity)`, and distinct keys never share a slot. -/
theorem reachable_invariants (br : Browser) (config : ICharAtlasConfig)
    (st : DynamicCharAtlas) (h : Reachable br config st) :
    st.cacheMap.length ≤ capacity config ∧
      (∀ e ∈ st.cacheMap, e.2 < capacity config) ∧
      (∀ e1 ∈ st.cacheMap, ∀ e2 ∈ st.cacheMap, e1.1 ≠ e2.1 → e1.2 ≠ e2.2) := by
  obtain ⟨hnd, hperm, hlen⟩ := reachable_mapInv h
  refine ⟨hlen, ?_, ?_⟩
  · intro e he
    have h1 : e.2 ∈ st.cacheMap.map Prod.snd := List.mem_map_of_mem Prod.snd he
    have h2 := hperm.mem_iff.mp h1
    rw [List.mem_range] at h2
    omega
  · intro e1 h1 e2 h2 hne heq
    have hsnd : (st.cacheMap.map Prod.snd).Nodup :=
      hperm.symm.nodup (List.nodup_range _)
    have he : e1 = e2 := List.inj_on_of_nodup_map hsnd h1 h2 heq
    exact hne (congrArg Prod.fst he)

/-- Witness for C3 at a state reached by one concrete `draw` call. -/
theorem reachable_invariants_witness :
    (fillState trivialBrowser cfg512 (mkDynamicCharAtlas cfg512) glyphA).cacheMap.length ≤
        capacity cfg512 ∧
      (∀ e ∈ (fillState trivialBrowser cfg512 (mkDynamicCharAtlas cfg512) glyphA).cacheMap,
        e.2 < capacity cfg512) ∧
      (∀ e1 ∈ (fillState trivialBrowser cfg512 (mkDynamicCharAtlas cfg512) glyphA).cacheMap,
        ∀ e2 ∈ (fillState trivialBrowser cfg512 (mkDynamicCharAtlas cfg512) glyphA).cacheMap,
        e1.1 ≠ e2.1 → e1.2 ≠ e2.2) :=
  reachable_invariants trivialBrowser cfg512 _
    (Reachable.step Reachable.fresh
      (draw_miss_fill trivialBrowser cfg512 (mkDynamicCharAtlas cfg512) blankCtx
        glyphA 0 0 rfl (by decide) (by decide)))

/-! ### C2: a hit protects the key from the next eviction -/

lemma mapGet_some_iff_of_nodup {m : CacheMap} (hnd : (m.map Prod.fst).Nodup)
    {k : GlyphCacheKey} {v : Nat} : mapGet m k = some v ↔ (k, v) ∈ m := by
  constructor
  · exact mapGet_some_mem
  · intro hmem
    induction m with
    | nil => cases hmem
    | cons e rest ih =>
      simp only [List.map_cons, List.nodup_cons] at hnd
      rcases List.mem_cons.mp hmem with h | h
      · rw [← h]
        exact mapGet_cons_self rfl
      · have hek : e.1 ≠ k := by
          intro hk
          apply hnd.1
          exact hk ▸ List.mem_map_of_mem Prod.fst h
        rw [mapGet_cons_ne hek]
        exact ih hnd.2 h

/-- C2 (amended): with at least two resident keys (so with capacity at
least 2, the cache holding exactly `capacity` keys), after a hit on key K
the next admission of a fresh cacheable key evicts the next-least-recent
resident entry — the first entry in recency order whose key differs from
K — and never K itself, whose binding survives. -/
theorem hit_protects_key (br : Browser) (config : ICharAtlasConfig)
    (st : DynamicCharAtlas) (ctxA ctxB : Canvas) (g gNew : IGlyphIdentifier)
    (x y x2 y2 : Nat) {i : Nat}
    (hnd : (st.cacheMap.map Prod.fst).Nodup)
    (hsize : st.cacheMap.length = capacity config)
    (hcap : 2 ≤ capacity config)
    (hK : mapGet st.cacheMap (getGlyphCacheKey g) = some i)
    (hcc : canCache gNew = true)
    (hNew : mapGet st.cacheMap (getGlyphCacheKey gNew) = none) :
    ∃ st1 ctx1 st2 ctx2 e,
      draw br config st ctxA g x y = some (true, st1, ctx1) ∧
      draw br config st1 ctxB gNew x2 y2 = some (true, st2, ctx2) ∧
      (mapDelete st.cacheMap (getGlyphCacheKey g)).head? = some e ∧
      e ∈ st.cacheMap ∧
      e.1 ≠ getGlyphCacheKey g ∧
      mapGet st2.cacheMap e.1 = none ∧
      mapGet st2.cacheMap (getGlyphCacheKey g) = some i ∧
      mapGet st2.cacheMap (getGlyphCacheKey gNew) = some e.2 := by
  have hKmem : (getGlyphCacheKey g, i) ∈ st.cacheMap := mapGet_some_mem hK
  have hp : st.cacheMap.Perm
      ((getGlyphCacheKey g, i) :: mapDelete st.cacheMap (getGlyphCacheKey g)) :=
    perm_cons_mapDelete hnd hKmem
  have hdel_len : (mapDelete st.cacheMap (getGlyphCacheKey g)).length + 1 =
      st.cacheMap.length := by
    have := hp.length_eq
    simp only [List.length_cons] at this
    omega
  obtain ⟨e, tl, hdel⟩ : ∃ e tl,
      mapDelete st.cacheMap (getGlyphCacheKey g) = e :: tl := by
    cases hd : mapDelete st.cacheMap (getGlyphCacheKey g) with
    | nil =>
      rw [hd] at hdel_len
      simp at hdel_len
      omega
    | cons e tl => exact ⟨e, tl, rfl⟩
  have hdraw1 := draw_hit br config st ctxA g x y hK
  -- facts about the post-hit map
  have hm1 : (hitState st (getGlyphCacheKey g) i).cacheMap =
      mapDelete st.cacheMap (getGlyphCacheKey g) ++ [(getGlyphCacheKey g, i)] := rfl
  have hkN_ne_K : getGlyphCacheKey gNew ≠ getGlyphCacheKey g := by
    intro h
    rw [h, hK] at hNew
    cases hNew
  have habsN : ∀ e2 ∈ st.cacheMap, e2.1 ≠ getGlyphCacheKey gNew :=
    mapGet_eq_none_iff.mp hNew
  have hm1get : mapGet (hitState st (getGlyphCacheKey g) i).cacheMap
      (getGlyphCacheKey gNew) = none := by
    rw [hm1]
    apply mapGet_eq_none_of_absent
    intro e2 he2
    rcases List.mem_append.mp he2 with h | h
    · exact habsN e2 (List.mem_of_mem_filter h)
    · rw [List.mem_singleton] at h
      rw [h]
      exact fun hq => hkN_ne_K hq.symm
  have hm1len : (hitState st (getGlyphCacheKey g) i).cacheMap.length =
      capacity config := by
    rw [hm1, List.length_append, List.length_singleton]
    omega
  have hnotlt : ¬ (hitState st (getGlyphCacheKey g) i).cacheMap.length <
      capacity config := by
    rw [hm1len]
    omega
  have hm1cons : (hitState st (getGlyphCacheKey g) i).cacheMap =
      e :: (tl ++ [(getGlyphCacheKey g, i)]) := by
    rw [hm1, hdel]
    rfl
  have hdraw2 := draw_miss_evict br config (hitState st (getGlyphCacheKey g) i)
    ctxB gNew x2 y2 hm1get hcc hnotlt hm1cons
  refine ⟨_, _, _, _, e, hdraw1, hdraw2, by rw [hdel]; rfl, ?_, ?_, ?_, ?_, ?_⟩
  · -- e is an entry of the original map
    exact List.mem_of_mem_filter (hdel ▸ List.mem_cons_self e tl)
  · -- e's key differs from K
    have hmem : e ∈ mapDelete st.cacheMap (getGlyphCacheKey g) :=
      hdel ▸ List.mem_cons_self e tl
    have := List.of_mem_filter hmem
    simpa using this
  · -- e is evicted
    have hnd_del : ((mapDelete st.cacheMap (getGlyphCacheKey g)).map Prod.fst).Nodup :=
      hnd.sublist (mapDelete_keys_sublist st.cacheMap (getGlyphCacheKey g))
    rw [hdel] at hnd_del
    simp only [List.map_cons, List.nodup_cons] at hnd_del
    have hKdel := key_not_mem_mapDelete st.cacheMap (getGlyphCacheKey g)
    rw [hdel] at hKdel
    simp only [List.map_cons, List.mem_cons] at hKdel
    push_neg at hKdel
    apply mapGet_eq_none_of_absent
    intro e2 he2
    simp only [evictState] at he2
    rcases List.mem_append.mp he2 with h | h
    · rcases List.mem_append.mp h with h | h
      · intro hq
        exact hnd_del.1 (hq ▸ List.mem_map_of_mem Prod.fst h)
      · rw [List.mem_singleton] at h
        rw [h]
        intro hq
        exact hKdel.1 hq
    · rw [List.mem_singleton] at h
      rw [h]
      have he_mem : e ∈ st.cacheMap :=
        List.mem_of_mem_filter (hdel ▸ List.mem_cons_self e tl)
      intro hq
      exact habsN e he_mem hq.symm
  · -- K's binding survives with its slot
    have hKdel := key_not_mem_mapDelete st.cacheMap (getGlyphCacheKey g)
    rw [hdel] at hKdel
    simp only [List.map_cons, List.mem_cons] at hKdel
    push_neg at hKdel
    have htl : mapGet tl (getGlyphCacheKey g) = none := by
      apply mapGet_eq_none_of_absent
      intro e2 he2
      intro hq
      exact hKdel.2 (hq ▸ List.mem_map_of_mem Prod.fst he2)
    have h1 : (evictState br config (hitState st (getGlyphCacheKey g) i) gNew e
        (tl ++ [(getGlyphCacheKey g, i)])).cacheMap =
        (tl ++ [(getGlyphCacheKey g, i)]) ++ [(getGlyphCacheKey gNew, e.2)] := rfl
    rw [h1, mapGet_append, mapGet_append, htl, Option.none_or,
      mapGet_cons_self rfl]
    rfl
  · -- the new key is bound to the reused slot
    have habsN' : mapGet (tl ++ [(getGlyphCacheKey g, i)])
        (getGlyphCacheKey gNew) = none := by
      apply mapGet_eq_none_of_absent
      intro e2 he2
      rcases List.mem_append.mp he2 with h | h
      · have he2m : e2 ∈ st.cacheMap :=
          List.mem_of_mem_filter
            (hdel ▸ List.mem_cons_of_mem e h)
        exact habsN e2 he2m
      · rw [List.mem_singleton] at h
        rw [h]
        exact fun hq => hkN_ne_K hq.symm
    have h1 : (evictState br config (hitState st (getGlyphCacheKey g) i) gNew e
        (tl ++ [(getGlyphCacheKey g, i)])).cacheMap =
        (tl ++ [(getGlyphCacheKey g, i)]) ++ [(getGlyphCacheKey gNew, e.2)] := rfl
    rw [h1, mapGet_append, habsN', Option.none_or, mapGet_cons_self rfl]

/-- Three draws at capacity 1: admit `a`, hit `a`, admit `b`. -/
def capacityOneRun : Option (DynamicCharAtlas × Canvas) :=
  drawSeq trivialBrowser cfg1024 [(glyphA, 0, 0), (glyphA, 0, 0), (glyphB, 0, 0)]
    (mkDynamicCharAtlas cfg1024) blankCtx

/-- C2 counterexample: with capacity 1, the cache holds exactly `capacity`
resident keys, a draw hits key `a`, and admitting the fresh cacheable key
`b` then evicts `a` itself — the claim's "never K" fails when K is the only
resident key. -/
theorem hit_key_evicted_at_capacity_one :
    (capacityOneRun.map fun r => mapGet r.1.cacheMap (getGlyphCacheKey glyphA)) =
      some none := rfl

/-- Witness for C2 at capacity 2: with residents `a` (slot 0) and `b`
(slot 1), a hit on `a` followed by admitting `c` evicts `b`, not `a`. -/
theorem hit_protects_key_witness :
    ∃ st1 ctx1 st2 ctx2 e,
      draw trivialBrowser cfgTwo
          { cacheMap := [(getGlyphCacheKey glyphA, 0), (getGlyphCacheKey glyphB, 1)]
            cacheCanvasWidth := TEXTURE_WIDTH
            cacheCanvasHeight := TEXTURE_HEIGHT
            cacheCanvas := blankCtx
            tmpCanvas := blankCtx
            rasterizations := 2 }
          blankCtx glyphA 0 0 = some (true, st1, ctx1) ∧
      draw trivialBrowser cfgTwo st1 blankCtx glyphC 0 0 = some (true, st2, ctx2) ∧
      (mapDelete [(getGlyphCacheKey glyphA, 0), (getGlyphCacheKey glyphB, 1)]
        (getGlyphCacheKey glyphA)).head? = some e ∧
      e ∈ [(getGlyphCacheKey glyphA, 0), (getGlyphCacheKey glyphB, 1)] ∧
      e.1 ≠ getGlyphCacheKey glyphA ∧
      mapGet st2.cacheMap e.1 = none ∧
      mapGet st2.cacheMap (getGlyphCacheKey glyphA) = some 0 ∧
      mapGet st2.cacheMap (getGlyphCacheKey glyphC) = some e.2 :=
  hit_protects_key trivialBrowser cfgTwo
    { cacheMap := [(getGlyphCacheKey glyphA, 0), (getGlyphCacheKey glyphB, 1)]
      cacheCanvasWidth := TEXTURE_WIDTH
      cacheCanvasHeight := TEXTURE_HEIGHT
      cacheCanvas := blankCtx
      tmpCanvas := blankCtx
      rasterizations := 2 }
    blankCtx blankCtx glyphA glyphC 0 0 0 0
    (by decide) (by decide) (by decide) (by decide) (by decide) (by decide)

/-! ### C8: the hit path neither rasterizes nor writes, across runs -/

lemma mapGet_hitState (st : DynamicCharAtlas) {k : GlyphCacheKey} {i : Nat}
    (hK : mapGet st.cacheMap k = some i) :
    ∀ k2, mapGet (hitState st k i).cacheMap k2 = mapGet st.cacheMap k2 := by
  intro k2
  have hm : (hitState st k i).cacheMap = mapDelete st.cacheMap k ++ [(k, i)] := rfl
  rw [hm, mapGet_append]
  by_cases hk2 : k2 = k
  · subst hk2
    rw [mapGet_mapDelete_self, Option.none_or, mapGet_cons_self rfl, hK]
  · rw [mapGet_mapDelete_ne st.cacheMap hk2]
    have h2 : mapGet [(k, i)] k2 = none := by
      rw [@mapGet_cons_ne (k, i) [] k2 (fun hq => hk2 hq.symm)]
      rfl
    rw [h2]
    cases mapGet st.cacheMap k2 <;> rfl

/-- Cell rectangles of distinct slots share no point. -/
lemma inSlotRect_disjoint (config : ICharAtlasConfig) {s1 s2 px py : Nat}
    (hne : s1 ≠ s2) (h1 : inSlotRect config s1 px py)
    (h2 : inSlotRect config s2 px py) : False := by
  have c1a : s1 % gridW config * config.scaledCharWidth ≤ px := h1.1
  have c1b : px < s1 % gridW config * config.scaledCharWidth + config.scaledCharWidth :=
    h1.2.1
  have c1c : s1 / gridW config * config.scaledCharHeight ≤ py := h1.2.2.1
  have c1d : py < s1 / gridW config * config.scaledCharHeight + config.scaledCharHeight :=
    h1.2.2.2
  have c2a : s2 % gridW config * config.scaledCharWidth ≤ px := h2.1
  have c2b : px < s2 % gridW config * config.scaledCharWidth + config.scaledCharWidth :=
    h2.2.1
  have c2c : s2 / gridW config * config.scaledCharHeight ≤ py := h2.2.2.1
  have c2d : py < s2 / gridW config * config.scaledCharHeight + config.scaledCharHeight :=
    h2.2.2.2
  have hcol : s1 % gridW config = s2 % gridW config := mul_interval_eq c1a c1b c2a c2b
  have hrow : s1 / gridW config = s2 / gridW config := mul_interval_eq c1c c1d c2c c2d
  apply hne
  calc s1 = gridW config * (s1 / gridW config) + s1 % gridW config :=
        (Nat.div_add_mod _ _).symm
    _ = gridW config * (s2 / gridW config) + s2 % gridW config := by rw [hcol, hrow]
    _ = s2 := Nat.div_add_mod _ _

/-- `_drawToCache` leaves the atlas untouched outside the written cell. -/
lemma drawToCache_cacheCanvas_outside (br : Browser) (config : ICharAtlasConfig)
    (st : DynamicCharAtlas) (glyph : IGlyphIdentifier) (index : Nat) {px py : Nat}
    (h : ¬ inSlotRect config index px py) :
    (drawToCache br config st glyph index).cacheCanvas (px, py) =
      st.cacheCanvas (px, py) := by
  show putImageData st.cacheCanvas _ (toCoordinates config index).1
    (toCoordinates config index).2 config.scaledCharWidth config.scaledCharHeight
    (px, py) = _
  rw [putImageData, if_neg h]

/-- The key `K` stays resident after every draw of the run: no intervening
draw evicts it (a key can only leave the map by eviction, and while
resident it can never be re-admitted, so residency throughout is exactly
absence of an intervening eviction). -/
def keyResidentThroughout (br : Browser) (config : ICharAtlasConfig)
    (K : GlyphCacheKey) :
    List (IGlyphIdentifier × Nat × Nat) → DynamicCharAtlas → Canvas → Prop
  | [], _, _ => True
  | t :: rest, st, ctx =>
    ∀ b st1 ctx1, draw br config st ctx t.1 t.2.1 t.2.2 = some (b, st1, ctx1) →
      mapGet st1.cacheMap K ≠ none ∧ keyResidentThroughout br config K rest st1 ctx1

/-- One draw that keeps `K` resident keeps `K` bound to its slot and leaves
the pixels of that slot's atlas cell unchanged. -/
lemma draw_step_keeps_slot {br : Browser} {config : ICharAtlasConfig}
    {st : DynamicCharAtlas} {ctx : Canvas} {glyph : IGlyphIdentifier} {x y : Nat}
    {b : Bool} {st1 : DynamicCharAtlas} {ctx1 : Canvas} {K : GlyphCacheKey} {i : Nat}
    (hinv : MapInv config st.cacheMap)
    (hK : mapGet st.cacheMap K = some i)
    (hdraw : draw br config st ctx glyph x y = some (b, st1, ctx1))
    (hres : mapGet st1.cacheMap K ≠ none) :
    mapGet st1.cacheMap K = some i ∧
      ∀ px py, inSlotRect config i px py →
        st1.cacheCanvas (px, py) = st.cacheCanvas (px, py) := by
  obtain ⟨hnd, hperm, hcap⟩ := hinv
  have hmemK : (K, i) ∈ st.cacheMap := mapGet_some_mem hK
  cases hget : mapGet st.cacheMap (getGlyphCacheKey glyph) with
  | some j =>
    rw [draw_hit br config st ctx glyph x y hget] at hdraw
    simp only [Option.some.injEq, Prod.mk.injEq] at hdraw
    obtain ⟨-, hst, -⟩ := hdraw
    subst hst
    exact ⟨(mapGet_hitState st hget K).trans hK, fun px py _ => rfl⟩
  | none =>
    have hkgK : getGlyphCacheKey glyph ≠ K := by
      intro h
      rw [h, hK] at hget
      cases hget
    cases hc : canCache glyph with
    | false =>
      rw [draw_miss_uncacheable br config st ctx glyph x y hget hc] at hdraw
      simp only [Option.some.injEq, Prod.mk.injEq] at hdraw
      obtain ⟨-, hst, -⟩ := hdraw
      subst hst
      exact ⟨hK, fun px py _ => rfl⟩
    | true =>
      by_cases hlen : st.cacheMap.length < capacity config
      · rw [draw_miss_fill br config st ctx glyph x y hget hc hlen] at hdraw
        simp only [Option.some.injEq, Prod.mk.injEq] at hdraw
        obtain ⟨-, hst, -⟩ := hdraw
        subst hst
        have hi_lt : i < st.cacheMap.length := by
          have h1 : i ∈ st.cacheMap.map Prod.snd := List.mem_map_of_mem Prod.snd hmemK
          have h2 := hperm.mem_iff.mp h1
          rwa [List.mem_range] at h2
        constructor
        · show mapGet (st.cacheMap ++ [(getGlyphCacheKey glyph, st.cacheMap.length)])
            K = some i
          rw [mapGet_append, hK, Option.or_some]
        · intro px py hpx
          have hout : ¬ inSlotRect config st.cacheMap.length px py := fun hin =>
            inSlotRect_disjoint config (Nat.ne_of_lt hi_lt) hpx hin
          exact drawToCache_cacheCanvas_outside br config st glyph
            st.cacheMap.length hout
      · cases hm : st.cacheMap with
        | nil =>
          rw [draw_crash br config st ctx glyph x y hget hc hlen hm] at hdraw
          cases hdraw
        | cons e rest =>
          rw [draw_miss_evict br config st ctx glyph x y hget hc hlen hm] at hdraw
          simp only [Option.some.injEq, Prod.mk.injEq] at hdraw
          obtain ⟨-, hst, -⟩ := hdraw
          subst hst
          rw [hm] at hnd hmemK
          simp only [List.map_cons, List.nodup_cons] at hnd
          -- the evicted head cannot be K, else K would be gone
          have heK : e.1 ≠ K := by
            intro he
            apply hres
            show mapGet (rest ++ [(getGlyphCacheKey glyph, e.2)]) K = none
            apply mapGet_eq_none_of_absent
            intro e2 he2
            rcases List.mem_append.mp he2 with h2 | h2
            · intro hq
              apply hnd.1
              rw [he]
              exact hq ▸ List.mem_map_of_mem Prod.fst h2
            · rw [List.mem_singleton] at h2
              rw [h2]
              exact hkgK
          have hmem_rest : (K, i) ∈ rest := by
            rcases List.mem_cons.mp hmemK with h2 | h2
            · exact absurd (congrArg Prod.fst h2.symm) heK
            · exact h2
          constructor
          · show mapGet (rest ++ [(getGlyphCacheKey glyph, e.2)]) K = some i
            have hrestK : mapGet rest K = some i :=
              (mapGet_some_iff_of_nodup hnd.2).mpr hmem_rest
            rw [mapGet_append, hrestK, Option.or_some]
          · intro px py hpx
            have hsnd : ((e :: rest).map Prod.snd).Nodup := by
              have h3 : ((e :: rest).map Prod.snd).Perm
                  (List.range (e :: rest).length) := hm ▸ hperm
              exact h3.symm.nodup (List.nodup_range _)
            have hei : e.2 ≠ i := by
              intro he2
              have heq : e = (K, i) :=
                List.inj_on_of_nodup_map hsnd (List.mem_cons_self e rest) hmemK he2
              exact heK (congrArg Prod.fst heq)
            have hout : ¬ inSlotRect config e.2 px py := fun hin =>
              inSlotRect_disjoint config (fun hq => hei hq.symm) hpx hin
            exact drawToCache_cacheCanvas_outside br config
              { st with cacheMap := rest } glyph e.2 hout

/-- Across a run of draws that never evicts `K`, the binding `K → i` and
the pixels of slot `i`'s atlas cell are preserved. -/
lemma drawSeq_keeps_slot (br : Browser) (config : ICharAtlasConfig)
    (K : GlyphCacheKey) (i : Nat) :
    ∀ (ts : List (IGlyphIdentifier × Nat × Nat)) (st : DynamicCharAtlas)
      (ctx : Canvas) (st2 : DynamicCharAtlas) (ctx2 : Canvas),
    MapInv config st.cacheMap →
    mapGet st.cacheMap K = some i →
    drawSeq br config ts st ctx = some (st2, ctx2) →
    keyResidentThroughout br config K ts st ctx →
    mapGet st2.cacheMap K = some i ∧
      ∀ px py, inSlotRect config i px py →
        st2.cacheCanvas (px, py) = st.cacheCanvas (px, py) := by
  intro ts
  induction ts with
  | nil =>
    intro st ctx st2 ctx2 _ hK hseq _
    simp only [drawSeq, Option.some.injEq, Prod.mk.injEq] at hseq
    obtain ⟨hst, -⟩ := hseq
    rw [← hst]
    exact ⟨hK, fun _ _ _ => rfl⟩
  | cons t rest ih =>
    intro st ctx st2 ctx2 hinv hK hseq hres
    cases hd : draw br config st ctx t.1 t.2.1 t.2.2 with
    | none =>
      simp [drawSeq, hd] at hseq
    | some r =>
      obtain ⟨b, stm, ctxm⟩ := r
      simp only [drawSeq, hd] at hseq
      obtain ⟨hresm, hrest⟩ := hres b stm ctxm hd
      obtain ⟨hKm, hcanm⟩ := draw_step_keeps_slot hinv hK hd hresm
      have hinvm : MapInv config stm.cacheMap := mapInv_preserved hd hinv
      obtain ⟨hK2, hcan2⟩ := ih stm ctxm st2 ctx2 hinvm hKm hseq hrest
      exact ⟨hK2, fun px py hp => (hcan2 px py hp).trans (hcanm px py hp)⟩

/-- Blits of the same slot from two states whose atlases agree on that
slot's cell are identical for every destination. -/
lemma drawFromCache_congr (br : Browser) (config : ICharAtlasConfig)
    {stA stB : DynamicCharAtlas} (i : Nat)
    (h : ∀ px py, inSlotRect config i px py →
      stA.cacheCanvas (px, py) = stB.cacheCanvas (px, py))
    (ctx : Canvas) (x y : Nat) :
    drawFromCache br config stA ctx i x y = drawFromCache br config stB ctx i x y := by
  funext p
  simp only [drawFromCache, drawImage]
  by_cases hcond : x ≤ p.1 ∧ p.1 < x + config.scaledCharWidth ∧
      y ≤ p.2 ∧ p.2 < y + config.scaledCharHeight
  · rw [if_pos hcond, if_pos hcond]
    obtain ⟨hc1, hc2, hc3, hc4⟩ := hcond
    congr 1
    apply h
    refine ⟨Nat.le_add_right _ _, ?_, Nat.le_add_right _ _, ?_⟩
    · omega
    · omega
  · rw [if_neg hcond, if_neg hcond]

/-- C8: on a cache hit, `draw` leaves the atlas canvas, the scratch canvas,
the rasterization count and the key-to-slot bindings unchanged (only the
key's recency position moves) and its output is the blit of the pre-state
atlas at the hit slot; moreover, after any run of further draw calls that
never evicts this key, drawing the identical glyph again is a hit on the
same slot whose destination output is the blit of the original atlas cell —
identical pixel output — and it again changes neither the rasterization
count nor the canvases nor the bindings. -/
theorem draw_hit_no_rasterization (br : Browser) (config : ICharAtlasConfig)
    (st : DynamicCharAtlas) (ctx : Canvas) (glyph : IGlyphIdentifier) (x y : Nat)
    {i : Nat} (hreach : Reachable br config st)
    (hK : mapGet st.cacheMap (getGlyphCacheKey glyph) = some i) :
    ∃ st1,
      draw br config st ctx glyph x y =
        some (true, st1, drawFromCache br config st ctx i x y) ∧
      st1.cacheCanvas = st.cacheCanvas ∧
      st1.tmpCanvas = st.tmpCanvas ∧
      st1.rasterizations = st.rasterizations ∧
      (∀ k, mapGet st1.cacheMap k = mapGet st.cacheMap k) ∧
      ∀ ts ctxm st2 ctx2,
        drawSeq br config ts st1 ctxm = some (st2, ctx2) →
        keyResidentThroughout br config (getGlyphCacheKey glyph) ts st1 ctxm →
        ∀ ctx3 x2 y2, ∃ st3,
          draw br config st2 ctx3 glyph x2 y2 =
            some (true, st3, drawFromCache br config st ctx3 i x2 y2) ∧
          st3.rasterizations = st2.rasterizations ∧
          st3.tmpCanvas = st2.tmpCanvas ∧
          st3.cacheCanvas = st2.cacheCanvas ∧
          (∀ k, mapGet st3.cacheMap k = mapGet st2.cacheMap k) := by
  have hinv : MapInv config st.cacheMap := reachable_mapInv hreach
  have hdraw1 := draw_hit br config st ctx glyph x y hK
  have hpres := mapGet_hitState st hK
  refine ⟨hitState st (getGlyphCacheKey glyph) i, hdraw1, rfl, rfl, rfl, hpres, ?_⟩
  intro ts ctxm st2 ctx2 hseq hsurv
  have hinv1 : MapInv config (hitState st (getGlyphCacheKey glyph) i).cacheMap :=
    mapInv_hit hinv hK
  have hK1 : mapGet (hitState st (getGlyphCacheKey glyph) i).cacheMap
      (getGlyphCacheKey glyph) = some i := (hpres _).trans hK
  obtain ⟨hK2, hcan2⟩ := drawSeq_keeps_slot br config (getGlyphCacheKey glyph) i ts
    (hitState st (getGlyphCacheKey glyph) i) ctxm st2 ctx2 hinv1 hK1 hseq hsurv
  intro ctx3 x2 y2
  have hdraw3 := draw_hit br config st2 ctx3 glyph x2 y2 hK2
  have hcanvas : ∀ px py, inSlotRect config i px py →
      (hitState st2 (getGlyphCacheKey glyph) i).cacheCanvas (px, py) =
        st.cacheCanvas (px, py) := fun px py hp => hcan2 px py hp
  refine ⟨hitState st2 (getGlyphCacheKey glyph) i, ?_, rfl, rfl, rfl,
    mapGet_hitState st2 hK2⟩
  rw [hdraw3, drawFromCache_congr br config i hcanvas ctx3 x2 y2]

/-- Reachable one-entry cache: `a` admitted to slot 0 at capacity 4. -/
def stOneGlyph : DynamicCharAtlas :=
  fillState trivialBrowser cfg512 (mkDynamicCharAtlas cfg512) glyphA

/-- Witness for C8: on the concrete reachable one-entry cache, drawing `a`
hits slot 0, and after any key-preserving run the repeat reproduces the
original blit. -/
theorem draw_hit_no_rasterization_witness :
    ∃ st1,
      draw trivialBrowser cfg512 stOneGlyph blankCtx glyphA 2 3 =
        some (true, st1, drawFromCache trivialBrowser cfg512 stOneGlyph blankCtx 0 2 3) ∧
      st1.cacheCanvas = stOneGlyph.cacheCanvas ∧
      st1.tmpCanvas = stOneGlyph.tmpCanvas ∧
      st1.rasterizations = stOneGlyph.rasterizations ∧
      (∀ k, mapGet st1.cacheMap k = mapGet stOneGlyph.cacheMap k) ∧
      ∀ ts ctxm st2 ctx2,
        drawSeq trivialBrowser cfg512 ts st1 ctxm = some (st2, ctx2) →
        keyResidentThroughout trivialBrowser cfg512 (getGlyphCacheKey glyphA)
          ts st1 ctxm →
        ∀ ctx3 x2 y2, ∃ st3,
          draw trivialBrowser cfg512 st2 ctx3 glyphA x2 y2 =
            some (true, st3,
              drawFromCache trivialBrowser cfg512 stOneGlyph ctx3 0 x2 y2) ∧
          st3.rasterizations = st2.rasterizations ∧
          st3.tmpCanvas = st2.tmpCanvas ∧
          st3.cacheCanvas = st2.cacheCanvas ∧
          (∀ k, mapGet st3.cacheMap k = mapGet st2.cacheMap k) :=
  draw_hit_no_rasterization trivialBrowser cfg512 stOneGlyph blankCtx glyphA 2 3
    (Reachable.step Reachable.fresh
      (draw_miss_fill trivialBrowser cfg512 (mkDynamicCharAtlas cfg512) blankCtx
        glyphA 0 0 rfl (by decide) (by decide)))
    rfl

/-! ### C5: the rasterization pipeline -/

/-- Follows the spec's words (§4.4 step 1): effective background color —
inverted-default sentinel → theme foreground; id < 256 → indexed palette
entry; otherwise theme default background. -/
def resolveBgSpec (config : ICharAtlasConfig) (bg : Nat) : IColor :=
  if bg = INVERTED_DEFAULT_COLOR then config.colors.foreground
  else if bg < 256 then config.colors.ansi bg
  else config.colors.background

/-- Follows the spec's words (§4.4 step 3): effective foreground color —
inverted-default sentinel → theme background; id < 256 → indexed palette
entry; otherwise theme default foreground. -/
def resolveFgSpec (config : ICharAtlasConfig) (fg : Nat) : IColor :=
  if fg = INVERTED_DEFAULT_COLOR then config.colors.background
  else if fg < 256 then config.colors.ansi fg
  else config.colors.foreground

/-- Follows the spec's words (§4.4 step 3): the style of the glyph drawing
operation — bold font variant when `bold` is set, text baseline at the top
edge, the dim opacity multiplier when `dim` is set. -/
def specStyle (config : ICharAtlasConfig) (glyph : IGlyphIdentifier) : CtxStyle :=
  { font :=
      if glyph.bold then
        "bold " ++ (natToString (config.fontSize * config.devicePixelDpr) ++ "px " ++
          config.fontFamily)
      else natToString (config.fontSize * config.devicePixelDpr) ++ "px " ++
        config.fontFamily
    fillStyle := resolveFgSpec config glyph.fg
    textBaseline := "top"
    globalAlpha := if glyph.dim then DIM_OPACITY else 1 }

/-- Follows the spec's words (§4.4 steps 1–3): the whole cell is filled
opaquely with the effective background, then the single glyph character is
drawn at the cell origin by the browser's rasterizer under `specStyle`. -/
def rasterizeSpecPre (br : Browser) (config : ICharAtlasConfig) (tmp : Canvas)
    (glyph : IGlyphIdentifier) : Canvas :=
  br.fillTextImpl (specStyle config glyph) glyph.char 0 0
    (fillRect tmp 0 0 config.scaledCharWidth config.scaledCharHeight
      (resolveBgSpec config glyph.bg))

/-- Follows the spec's words (§4.4 step 4): the rendered buffer is read
back and every pixel exactly matching the fill background is made fully
transparent. -/
def rasterizeSpec (br : Browser) (config : ICharAtlasConfig) (tmp : Canvas)
    (glyph : IGlyphIdentifier) : ImageData :=
  clearColor (getImageData (rasterizeSpecPre br config tmp glyph) 0 0)
    (resolveBgSpec config glyph.bg)

/-- C5: `_drawToCache` follows the spec's pipeline in order: the scratch
cell is the opaque background fill with the three-way-resolved background
color, overdrawn by the rasterizer with the three-way-resolved foreground
style (bold variant, top baseline, dim opacity); the buffer is
background-stripped — pixels exactly matching the fill background become
alpha 0, all others are untouched — and is written verbatim, without
blending, into the atlas at the slot's coordinates, leaving the rest of the
atlas unchanged. -/
theorem drawToCache_pipeline (br : Browser) (config : ICharAtlasConfig)
    (st : DynamicCharAtlas) (glyph : IGlyphIdentifier) (index : Nat) :
    (drawToCache br config st glyph index).tmpCanvas =
        rasterizeSpecPre br config st.tmpCanvas glyph
    ∧ (drawToCache br config st glyph index).cacheCanvas =
        putImageData st.cacheCanvas (rasterizeSpec br config st.tmpCanvas glyph)
          (toCoordinates config index).1 (toCoordinates config index).2
          config.scaledCharWidth config.scaledCharHeight
    ∧ (∀ p, getImageData (rasterizeSpecPre br config st.tmpCanvas glyph) 0 0 p =
          ⟨(resolveBgSpec config glyph.bg).r, (resolveBgSpec config glyph.bg).g,
            (resolveBgSpec config glyph.bg).b, 255⟩ →
        rasterizeSpec br config st.tmpCanvas glyph p =
          ⟨(resolveBgSpec config glyph.bg).r, (resolveBgSpec config glyph.bg).g,
            (resolveBgSpec config glyph.bg).b, 0⟩)
    ∧ (∀ p, getImageData (rasterizeSpecPre br config st.tmpCanvas glyph) 0 0 p ≠
          ⟨(resolveBgSpec config glyph.bg).r, (resolveBgSpec config glyph.bg).g,
            (resolveBgSpec config glyph.bg).b, 255⟩ →
        rasterizeSpec br config st.tmpCanvas glyph p =
          getImageData (rasterizeSpecPre br config st.tmpCanvas glyph) 0 0 p)
    ∧ (∀ px py,
        (toCoordinates config index).1 ≤ px →
        px < (toCoordinates config index).1 + config.scaledCharWidth →
        (toCoordinates config index).2 ≤ py →
        py < (toCoordinates config index).2 + config.scaledCharHeight →
        (drawToCache br config st glyph index).cacheCanvas (px, py) =
          rasterizeSpec br config st.tmpCanvas glyph
            (px - (toCoordinates config index).1,
              py - (toCoordinates config index).2))
    ∧ (∀ px py,
        ¬ ((toCoordinates config index).1 ≤ px ∧
            px < (toCoordinates config index).1 + config.scaledCharWidth ∧
            (toCoordinates config index).2 ≤ py ∧
            py < (toCoordinates config index).2 + config.scaledCharHeight) →
        (drawToCache br config st glyph index).cacheCanvas (px, py) =
          st.cacheCanvas (px, py)) := by
  refine ⟨rfl, rfl, ?_, ?_, ?_, ?_⟩
  · intro p hp
    show clearColor (getImageData (rasterizeSpecPre br config st.tmpCanvas glyph) 0 0)
      (resolveBgSpec config glyph.bg) p = _
    rw [clearColor, if_pos hp]
  · intro p hp
    show clearColor (getImageData (rasterizeSpecPre br config st.tmpCanvas glyph) 0 0)
      (resolveBgSpec config glyph.bg) p = _
    rw [clearColor, if_neg hp]
  · intro px py h1 h2 h3 h4
    show putImageData st.cacheCanvas (rasterizeSpec br config st.tmpCanvas glyph)
      (toCoordinates config index).1 (toCoordinates config index).2
      config.scaledCharWidth config.scaledCharHeight (px, py) = _
    rw [putImageData, if_pos ⟨h1, h2, h3, h4⟩]
  · intro px py h
    show putImageData st.cacheCanvas (rasterizeSpec br config st.tmpCanvas glyph)
      (toCoordinates config index).1 (toCoordinates config index).2
      config.scaledCharWidth config.scaledCharHeight (px, py) = _
    rw [putImageData, if_neg h]

/-- Witness for C5: with the trivial rasterizer, the pixel at the cell
origin matches the fill background and is made fully transparent. -/
theorem drawToCache_pipeline_witness :
    rasterizeSpec trivialBrowser cfg1024 (mkDynamicCharAtlas cfg1024).tmpCanvas
      glyphA (0, 0) = ⟨0, 0, 0, 0⟩ :=
  (drawToCache_pipeline trivialBrowser cfg1024 (mkDynamicCharAtlas cfg1024)
    glyphA 0).2.2.1 (0, 0) rfl

end XtermAtlas
